import Mathlib

/-! Shallow embedding of the linaria shaker plugin (the `rearrangeExports`
normalizer and the Program-enter visitor of `shakerPlugin` in
`src/unnamed/part_000`), together with proofs about its liveness
computation, fixed-point eliminator, restoration pass and result reporter.

Babel `NodePath` identities are modelled as natural numbers.  The outputs of
the external collector `collectExportsAndImports` are taken as inputs
(`Collected`).  Scope and tree primitives that live outside the repository
(`getBindingForExport`'s scope lookup, `findActionForNode`, `isAncestor`,
node `name` access, `shouldKeepSideEffect`, `removeDangerousCode`) are
abstracted into an environment `Env` of pure query functions; the statement
set removed by `removeDangerousCode` is the field `dangerousNodes`.
Modelled from the spec: the reference-edge primitives `dereference` /
`reference` (external "add/remove reference edge" operations, spec §2) are
modelled with set semantics on an explicit edge list `(binding, path)`;
`applyAction` / `removeWithRelated` (external deletion primitives) are
modelled as marking the target node removed, and `isRemoved` as membership
in the removed set. -/

/-- Tree nodes (babel `NodePath` identities) are natural numbers. -/
abbrev Node := Nat

/-- An import record produced by the external collector: the imported name
(or the sentinel string `side-effect`), the source specifier, and the local
node path. -/
structure ImportRecord where
  imported : String
  source : String
  localNode : Node
deriving DecidableEq

/-- A re-export record produced by the external collector. -/
structure ReexportRecord where
  exported : String
  imported : String
  source : String
  localNode : Node
deriving DecidableEq

/-- The result of `collectExportsAndImports`: imports, the export
name-to-node map (as an association list in object-key order), the internal
re-read sites of each export, re-export records and the ES-module flag. -/
structure Collected where
  imports : List ImportRecord
  exports : List (String × Node)
  exportRefs : List (String × List Node)
  reexports : List ReexportRecord
  isEsModule : Bool
deriving DecidableEq

/-- The `ifUnknownExport` policy values. -/
inductive Policy where
  | error
  | ignore
  | reexportAll
  | skipShaking
deriving DecidableEq

/-- One entry of the `deadImports` option (`{ what, from }`). -/
structure DeadImport where
  what : String
  fromSource : String
deriving DecidableEq

/-- External scope and tree queries used by the plugin, abstracted as pure
functions: `getBindingForExport` (the scope-lookup result of the helper of
the same name), `findActionForNode` (returning the action's parent
statement when an action exists), `isAncestor`, `isIdentifier`, the node's
`name` property (empty string when absent), the `shouldKeepSideEffect`
predicate, and the node set stripped by `removeDangerousCode`. -/
structure Env where
  getBindingForExport : Node → Option Nat
  findActionForNode : Node → Option Node
  isAncestor : Node → Node → Bool
  isIdentifier : Node → Bool
  nodeName : Node → String
  shouldKeepSideEffect : String → Bool
  dangerousNodes : List Node

/-- Top-level statements of the module: original statements, the `var _uid`
declarations unshifted by `rearrangeExports`, and the
`exports.name = _uid` assignments it pushes (synthesized identifiers are
tracked by the counter value babel's collision-free `generateUid` call is
modelled with, and `rhs` is the node of the assignment's right side). -/
inductive Stmt where
  | orig (n : Node)
  | varDecl (uid : Nat)
  | exportAssign (name : String) (uid : Nat) (rhs : Node)
deriving DecidableEq

/-- Whether a statement is an original module statement. -/
def Stmt.isOrig : Stmt → Bool
  | .orig _ => true
  | _ => false

/-- Whether a statement is a synthesized declaration. -/
def Stmt.isVarDecl : Stmt → Bool
  | .varDecl _ => true
  | _ => false

/-- Whether a statement is a synthesized tail assignment. -/
def Stmt.isExportAssign : Stmt → Bool
  | .exportAssign _ _ _ => true
  | _ => false

/-- JavaScript-object assignment `obj[k] = v`: replace the value of an
existing key in place, otherwise append the key. -/
def upsert (l : List (String × Node)) (k : String) (v : Node) : List (String × Node) :=
  if l.any (fun p => p.1 = k) then
    l.map (fun p => if p.1 = k then (k, v) else p)
  else l ++ [(k, v)]

/-- Key lookup in the export map (`exports[k]`, `undefined` becomes
`none`). -/
def lookupExport (l : List (String × Node)) (k : String) : Option Node :=
  match l with
  | [] => none
  | p :: rest => if p.1 = k then some p.2 else lookupExport rest k

/-- State threaded through `rearrangeExports`: the statement list, the
rearranged export map, the reference sites replaced with a synthesized
identifier, and counters for `generateUid` and for fresh node paths. -/
structure RState where
  body : List Stmt
  exportsOut : List (String × Node)
  replaced : List (Node × Nat)
  uidCounter : Nat
  nodeCounter : Node
deriving DecidableEq

/-- One `exportRefs.forEach` iteration of `rearrangeExports`: names with at
most one internal reference are skipped; otherwise a fresh variable is
declared at the top, every reference site is replaced with it, one
`exports.name = uid` assignment is pushed at the bottom, and the export
entry is repointed at the assignment's right side. -/
def processEntry (st : RState) (entry : String × List Node) : RState :=
  if entry.2.length ≤ 1 then st
  else
    { body := Stmt.varDecl st.uidCounter ::
        (st.body ++ [Stmt.exportAssign entry.1 st.uidCounter st.nodeCounter])
      exportsOut := upsert st.exportsOut entry.1 st.nodeCounter
      replaced := st.replaced ++ entry.2.map (fun r => (r, st.uidCounter))
      uidCounter := st.uidCounter + 1
      nodeCounter := st.nodeCounter + 1 }

/-- The export normalizer `rearrangeExports`, folded over the
`exportRefs` entries. -/
def rearrangeExports (exportRefs : List (String × List Node))
    (exports : List (String × Node)) (body0 : List Stmt) (uid0 : Nat)
    (node0 : Node) : RState :=
  exportRefs.foldl processEntry
    { body := body0, exportsOut := exports, replaced := [], uidCounter := uid0
      nodeCounter := node0 }

/-- The reference sites of a binding in the current edge list
(`binding.referencePaths`). -/
def refsOf (edges : List (Nat × Node)) (b : Nat) : List Node :=
  (edges.filter (fun e => e.1 = b)).map (fun e => e.2)

/-- The `outerReferences` computation of the eliminator loop: the binding's
reference sites that are neither the action's parent statement nor inside
it; without a binding there are none, and without an action every site
counts. -/
def outerRefs (env : Env) (edges : List (Nat × Node)) (path : Node) : List Node :=
  match env.getBindingForExport path with
  | none => []
  | some b =>
    (refsOf edges b).filter (fun ref =>
      match env.findActionForNode path with
      | none => true
      | some parent => decide (ref ≠ parent) && !(env.isAncestor parent ref))

/-- Modelled from the spec: the external `dereference` primitive removes
the path's reference edge from its binding's reference list (no-op without
a binding). -/
def dereference (env : Env) (edges : List (Nat × Node)) (path : Node) :
    List (Nat × Node) :=
  edges.filter (fun e =>
    !(decide (env.getBindingForExport path = some e.1) && decide (e.2 = path)))

/-- Modelled from the spec: the external `reference` primitive adds the
path's reference edge to its binding's reference list when it is not
already present (no-op without a binding). -/
def reference (env : Env) (edges : List (Nat × Node)) (path : Node) :
    List (Nat × Node) :=
  match env.getBindingForExport path with
  | none => edges
  | some b => if (b, path) ∈ edges then edges else edges ++ [(b, path)]

/-- Mutable state of the fixed-point eliminator: the `deleted` set, the
reference-edge list, the `dereferenced` list (in push order) and the
`changed` flag. -/
structure ElimState where
  deleted : Finset Node
  edges : List (Nat × Node)
  deref : List Node
  changed : Bool
deriving DecidableEq

/-- The first `if` of a candidate visit in the eliminator's inner loop:
when outer references exist and the candidate is an identifier, sever its
edge temporarily and record it in the `dereferenced` list. -/
def severStep (env : Env) (st : ElimState) (path : Node) : ElimState :=
  if 0 < (outerRefs env st.edges path).length ∧ env.isIdentifier path = true then
    { st with edges := dereference env st.edges path, deref := st.deref ++ [path] }
  else st

/-- One candidate visit of the eliminator's inner `for` loop: compute the
outer references (against the edges before severing); if some exist and
the candidate is an identifier, sever its edge and record it; then, if not
already deleted and either unbound or without outer references, mark it
deleted and flag progress. -/
def elimStep (env : Env) (st : ElimState) (path : Node) : ElimState :=
  let st1 := severStep env st path
  if path ∉ st1.deleted ∧ (env.getBindingForExport path = none ∨
      (outerRefs env st.edges path).length = 0) then
    { st1 with deleted := insert path st1.deleted, changed := true }
  else st1

/-- One full pass of the eliminator over the worklist, with the `changed`
flag reset at the start. -/
def passE (env : Env) (wl : List Node) (st : ElimState) : ElimState :=
  wl.foldl (elimStep env) { st with changed := false }

/-- The eliminator's `while (changed && deleted.size < forDeleting.length)`
loop, written with explicit fuel. -/
def elimLoop (env : Env) (wl : List Node) : Nat → ElimState → ElimState
  | 0, st => st
  | fuel + 1, st =>
    if st.changed = true ∧ st.deleted.card < wl.length then
      elimLoop env wl fuel (passE env wl st)
    else st

/-- Initial eliminator state: nothing deleted, the given edges, nothing
dereferenced, `changed` initialized to `true`. -/
def initElimState (edges0 : List (Nat × Node)) : ElimState :=
  { deleted := ∅, edges := edges0, deref := [], changed := true }

/-- One step of the restoration pass: a still-removed path is skipped,
every other dereferenced path is referenced back. -/
def restoreStep (env : Env) (removedF : Finset Node) (edges : List (Nat × Node))
    (p : Node) : List (Nat × Node) :=
  if p ∈ removedF then edges else reference env edges p

/-- The restoration pass over the `dereferenced` list. -/
def restoreAll (env : Env) (removedF : Finset Node) (st : ElimState) :
    List (Nat × Node) :=
  st.deref.foldl (restoreStep env removedF) st.edges

/-- The external `sideEffectImport` predicate: an import whose imported
name is the `side-effect` sentinel. -/
def sideEffectImport (i : ImportRecord) : Bool := i.imported = "side-effect"

/-- The export half of the `aliveExports` construction: an entry is alive
when its exported name is requested, when its local node's name matches an
imported name, or when its node is already alive (shared initializer). -/
def aliveFromExports (env : Env) (importNames : List String) (s2 : Finset String)
    (exports : List (String × Node)) : Finset Node :=
  exports.foldl (fun acc e =>
    if e.1 ∈ s2 then insert e.2 acc
    else if env.nodeName e.2 ∈ importNames then insert e.2 acc
    else if e.2 ∈ acc then insert e.2 acc
    else acc) ∅

/-- The full `aliveExports` set: the export half plus every re-export whose
exported name is requested. -/
def aliveSet (env : Env) (c : Collected) (s2 : Finset String)
    (exports : List (String × Node)) : Finset Node :=
  c.reexports.foldl
    (fun acc r => if r.exported ∈ s2 then insert r.localNode acc else acc)
    (aliveFromExports env (c.imports.map (fun i => i.imported)) s2 exports)

/-- The `reexport-all` augmentation: keep the wildcard export entry and
every wildcard re-export alive. -/
def addReexportAll (c : Collected) (exports : List (String × Node))
    (alive : Finset Node) : Finset Node :=
  c.reexports.foldl
    (fun acc r => if r.exported = "*" then insert r.localNode acc else acc)
    (match lookupExport exports "*" with
     | some n => insert n alive
     | none => alive)

/-- Resolved plugin options after destructuring defaults. -/
structure ShakerConfig where
  onlyExports : List String
  ifUnknownExport : Policy
  keepSideEffects : Bool
  deadImports : List DeadImport
  dangerousEnabled : Bool

/-- The raw `IShakerOptions` fields that carry destructuring defaults. -/
structure IShakerOptions where
  onlyExports : List String
  ifUnknownExport : Option Policy
  keepSideEffects : Option Bool
  deadImports : Option (List DeadImport)

/-- Application of the destructuring defaults of `shakerPlugin`:
`ifUnknownExport = 'skip-shaking'`, `keepSideEffects = false`,
`deadImports = []`. -/
def resolveOptions (o : IShakerOptions) (dangerousEnabled : Bool) : ShakerConfig :=
  { onlyExports := o.onlyExports
    ifUnknownExport := o.ifUnknownExport.getD Policy.skipShaking
    keepSideEffects := o.keepSideEffects.getD false
    deadImports := o.deadImports.getD []
    dangerousEnabled := dangerousEnabled }

/-- The side-effect-only imports scheduled for deletion: those whose source
does not pass `shouldKeepSideEffect`. -/
def sideEffectTargets (env : Env) (c : Collected) : List Node :=
  (((c.imports.filter sideEffectImport).filter
      (fun i => !env.shouldKeepSideEffect i.source)).map (fun i => i.localNode))

/-- The nodes scheduled for deletion by the `deadImports` option: the
import's own local node when it is unbound, otherwise all of its binding's
reference sites. -/
def deadImportTargets (env : Env) (deadImports : List DeadImport) (c : Collected)
    (edges0 : List (Nat × Node)) : List Node :=
  c.imports.foldr (fun i acc =>
    if i.imported = "side-effect" then acc
    else if deadImports.any (fun d => decide (i.imported = d.what) &&
        decide (i.source = d.fromSource)) then
      (match env.getBindingForExport i.localNode with
       | none => [i.localNode]
       | some b => refsOf edges0 b) ++ acc
    else acc) []

/-- The initial `forDeleting` worklist: the non-alive export and re-export
nodes, then (unless side effects are kept or were requested) the
side-effect import targets, then the dead-import targets. -/
def forDeletingList (cfg : ShakerConfig) (env : Env) (c : Collected)
    (exports : List (String × Node)) (edges0 : List (Nat × Node))
    (alive : Finset Node) (importedAsSideEffect : Bool) : List Node :=
  ((exports.map (fun e => e.2) ++ c.reexports.map (fun r => r.localNode)).filter
      (fun n => decide (n ∉ alive))) ++
    (if !cfg.keepSideEffects && !importedAsSideEffect then sideEffectTargets env c
     else []) ++
    (if cfg.deadImports ≠ [] then deadImportTargets env cfg.deadImports c edges0
     else [])

/-- The published result of one shaker pass over a module. -/
structure ShakeResult where
  imports : List ImportRecord
  exports : List (String × Node)
  reexports : List ReexportRecord
  deadExports : List String
  removedNodes : Finset Node
  body : List Stmt
  edges : List (Nat × Node)
  deref : List Node
deriving DecidableEq

deriving instance DecidableEq for Except

/-- The `withoutRemoved` helper: keep the records whose local node
survived. -/
def withoutRemoved {α : Type} (localOf : α → Node) (removedF : Finset Node)
    (items : List α) : List α :=
  items.filter (fun x => decide (localOf x ∉ removedF))

/-- The result reporter (the tail of the enter visitor): filter imports and
re-exports through `withoutRemoved`, split the export entries into the
surviving map and the dead-export name list. -/
def report (c : Collected) (exports : List (String × Node)) (bodyR : List Stmt)
    (removedF : Finset Node) (edgesF : List (Nat × Node)) (derefF : List Node) :
    ShakeResult :=
  { imports := withoutRemoved (fun i => i.localNode) removedF c.imports
    exports := exports.filter (fun e => decide (e.2 ∉ removedF))
    reexports := withoutRemoved (fun r => r.localNode) removedF c.reexports
    deadExports := (exports.filter (fun e => decide (e.2 ∈ removedF))).map
      Prod.fst
    removedNodes := removedF
    body := bodyR
    edges := edgesF
    deref := derefF }

/-- The shaking branch of the enter visitor: optional dangerous-code
stripping, worklist construction, the fixed-point eliminator (with fuel
`worklist length + 1`), restoration and reporting. -/
def shakeCore (cfg : ShakerConfig) (env : Env) (c : Collected)
    (exports : List (String × Node)) (bodyR : List Stmt)
    (edges0 : List (Nat × Node)) (alive : Finset Node)
    (importedAsSideEffect : Bool) : ShakeResult :=
  let removed0 : Finset Node :=
    if cfg.dangerousEnabled then env.dangerousNodes.toFinset else ∅
  let wl := forDeletingList cfg env c exports edges0 alive importedAsSideEffect
  let fin := elimLoop env wl (wl.length + 1) (initElimState edges0)
  let removedF := removed0 ∪ fin.deleted
  report c exports bodyR removedF (restoreAll env removedF fin) fin.deref

/-- The requested-set trimming: drop `__linariaPreval` from the request
when the module does not export it. -/
def trimmedSet (onlyExports : List String) (exportsR : List (String × Node)) :
    Finset String :=
  let s0 := onlyExports.toFinset
  if "__linariaPreval" ∈ s0 ∧ lookupExport exportsR "__linariaPreval" = none then
    s0.erase "__linariaPreval"
  else s0

/-- The default-export interop hazard: `default` is requested, exists, and
the module kind is not confirmed ES-module-style. -/
def hazardCond (s2 : Finset String) (exportsR : List (String × Node))
    (esModule : Bool) : Prop :=
  "default" ∈ s2 ∧ lookupExport exportsR "default" ≠ none ∧ esModule = false

instance (s2 : Finset String) (exportsR : List (String × Node)) (esModule : Bool) :
    Decidable (hazardCond s2 exportsR esModule) := by
  unfold hazardCond; infer_instance

/-- The fatal message of the `error` policy, enumerating the whole original
request. -/
def errorMessage (onlyExports : List String) : String :=
  "Unknown export(s) requested: " ++ String.intercalate "," onlyExports

/-- The Program-enter visitor of `shakerPlugin`: export rearrangement,
request trimming, the empty-request fast path, the default-interop hazard
abort, liveness, the `ifUnknownExport` policy, elimination and reporting.
A thrown error is an `Except.error`. -/
def shakerPluginEnter (cfg : ShakerConfig) (env : Env) (c : Collected)
    (body0 : List Stmt) (uid0 : Nat) (node0 : Node)
    (edges0 : List (Nat × Node)) : Except String ShakeResult :=
  let R := rearrangeExports c.exportRefs c.exports body0 uid0 node0
  let exports := R.exportsOut
  let s1 := trimmedSet cfg.onlyExports exports
  if s1 = ∅ then
    Except.ok
      { imports := [], exports := [], reexports := [],
        deadExports := exports.map Prod.fst, removedNodes := ∅,
        body := [], edges := edges0, deref := [] }
  else
    let importedAsSideEffect := "side-effect" ∈ s1
    let s2 := s1.erase "side-effect"
    if hazardCond s2 exports c.isEsModule then
      Except.ok
        { imports := c.imports, exports := exports, reexports := c.reexports,
          deadExports := [], removedNodes := ∅, body := R.body,
          edges := edges0, deref := [] }
    else if "*" ∉ s2 then
      let alive := aliveSet env c s2 exports
      if alive.card ≠ s2.card ∧ cfg.ifUnknownExport ≠ Policy.ignore then
        if cfg.ifUnknownExport = Policy.error then
          Except.error (errorMessage cfg.onlyExports)
        else
          let alive2 :=
            if cfg.ifUnknownExport = Policy.reexportAll then
              addReexportAll c exports alive
            else alive
          if cfg.ifUnknownExport = Policy.skipShaking then
            Except.ok
              { imports := c.imports, exports := exports,
                reexports := c.reexports, deadExports := [],
                removedNodes := ∅, body := R.body, edges := edges0,
                deref := [] }
          else
            Except.ok (shakeCore cfg env c exports R.body edges0 alive2
              importedAsSideEffect)
      else
        Except.ok (shakeCore cfg env c exports R.body edges0 alive
          importedAsSideEffect)
    else
      Except.ok (report c exports R.body ∅ edges0 [])

/-- Keys of the export map are unchanged by an upsert of an existing
key. -/
theorem upsert_keys (l : List (String × Node)) (k : String) (v : Node)
    (h : k ∈ l.map Prod.fst) : (upsert l k v).map Prod.fst = l.map Prod.fst := by
  have hany : l.any (fun p => decide (p.1 = k)) = true := by
    rw [List.any_eq_true]
    obtain ⟨p, hp, hpk⟩ := List.mem_map.mp h
    exact ⟨p, hp, by simp [hpk]⟩
  unfold upsert
  rw [if_pos hany, List.map_map]
  refine List.map_congr_left ?_
  intro a _
  by_cases hk : a.1 = k
  · simp [hk]
  · simp [hk]

/-- Keys of the export map are unchanged by `processEntry` when the entry
name is already a key. -/
theorem processEntry_keys (st : RState) (entry : String × List Node)
    (h : entry.1 ∈ st.exportsOut.map Prod.fst) :
    (processEntry st entry).exportsOut.map Prod.fst =
      st.exportsOut.map Prod.fst := by
  unfold processEntry
  split
  · rfl
  · exact upsert_keys _ _ _ h

/-- Keys of the export map are unchanged by the `rearrangeExports` fold
when every entry name is already a key. -/
theorem foldl_processEntry_keys (l : List (String × List Node)) (st : RState)
    (h : ∀ e ∈ l, e.1 ∈ st.exportsOut.map Prod.fst) :
    (l.foldl processEntry st).exportsOut.map Prod.fst =
      st.exportsOut.map Prod.fst := by
  induction l generalizing st with
  | nil => rfl
  | cons a l ih =>
    have ha := processEntry_keys st a (h a (by simp))
    have hsub : ∀ e ∈ l, e.1 ∈ (processEntry st a).exportsOut.map Prod.fst := by
      intro e he
      rw [ha]
      exact h e (List.mem_cons_of_mem _ he)
    rw [List.foldl_cons, ih (processEntry st a) hsub, ha]

/-- `rearrangeExports` preserves the export-name list when every
`exportRefs` name is an export name. -/
theorem rearrangeExports_keys (exportRefs : List (String × List Node))
    (exports : List (String × Node)) (body0 : List Stmt) (uid0 : Nat)
    (node0 : Node) (h : ∀ e ∈ exportRefs, e.1 ∈ exports.map Prod.fst) :
    (rearrangeExports exportRefs exports body0 uid0 node0).exportsOut.map
        Prod.fst = exports.map Prod.fst :=
  foldl_processEntry_keys exportRefs _ h

/-- C2: for every module, if the requested export set is empty, every
top-level statement of the module is removed and the published result has
empty imports, empty exports, empty re-exports, and a dead-export list
equal to the module's original export names. -/
theorem c2_empty_request_fast_path (cfg : ShakerConfig) (env : Env)
    (c : Collected) (body0 : List Stmt) (uid0 : Nat) (node0 : Node)
    (edges0 : List (Nat × Node)) (hreq : cfg.onlyExports = [])
    (hkeys : ∀ e ∈ c.exportRefs, e.1 ∈ c.exports.map Prod.fst) :
    shakerPluginEnter cfg env c body0 uid0 node0 edges0 =
      Except.ok
        { imports := [], exports := [], reexports := [],
          deadExports := c.exports.map Prod.fst, removedNodes := ∅,
          body := [], edges := edges0, deref := [] } := by
  have hk := rearrangeExports_keys c.exportRefs c.exports body0 uid0 node0 hkeys
  have hts : trimmedSet cfg.onlyExports
      (rearrangeExports c.exportRefs c.exports body0 uid0 node0).exportsOut = ∅ := by
    simp only [trimmedSet, hreq]
    simp
  simp only [shakerPluginEnter]
  rw [if_pos hts, hk]

/-- Witness for C2 at a concrete module with one export. -/
def envA : Env :=
  { getBindingForExport := fun _ => none
    findActionForNode := fun _ => none
    isAncestor := fun _ _ => false
    isIdentifier := fun _ => false
    nodeName := fun _ => ""
    shouldKeepSideEffect := fun _ => false
    dangerousNodes := [] }

theorem c2_empty_request_fast_path_witness :
    (([] : List String) = [] ∧
      ∀ e ∈ ([] : List (String × List Node)), e.1 ∈ [("a", (1 : Node))].map Prod.fst) ∧
    shakerPluginEnter ⟨[], Policy.skipShaking, false, [], false⟩ envA
        ⟨[], [("a", 1)], [], [], true⟩ [Stmt.orig 0] 0 100 [] =
      Except.ok
        { imports := [], exports := [], reexports := [],
          deadExports := ["a"], removedNodes := ∅, body := [], edges := [],
          deref := [] } :=
  ⟨⟨rfl, by simp⟩,
    c2_empty_request_fast_path ⟨[], Policy.skipShaking, false, [], false⟩ envA
      ⟨[], [("a", 1)], [], [], true⟩ [Stmt.orig 0] 0 100 [] rfl (by simp)⟩

/-- C1: for every module that has a `default` export and whose ES-module
kind is not confirmed, if `default` is among the requested export names
then the pass deletes nothing: all collected imports, exports, and
re-exports are reported alive and the dead-export list is empty,
regardless of what other names are requested. -/
theorem c1_default_interop_abort (cfg : ShakerConfig) (env : Env)
    (c : Collected) (body0 : List Stmt) (uid0 : Nat) (node0 : Node)
    (edges0 : List (Nat × Node)) (hdef : "default" ∈ cfg.onlyExports)
    (hhas : lookupExport
        (rearrangeExports c.exportRefs c.exports body0 uid0 node0).exportsOut
        "default" ≠ none)
    (hes : c.isEsModule = false) :
    shakerPluginEnter cfg env c body0 uid0 node0 edges0 =
      Except.ok
        { imports := c.imports,
          exports :=
            (rearrangeExports c.exportRefs c.exports body0 uid0 node0).exportsOut,
          reexports := c.reexports, deadExports := [], removedNodes := ∅,
          body := (rearrangeExports c.exportRefs c.exports body0 uid0 node0).body,
          edges := edges0, deref := [] } := by
  set R := rearrangeExports c.exportRefs c.exports body0 uid0 node0 with hR
  have hdef0 : "default" ∈ cfg.onlyExports.toFinset := List.mem_toFinset.mpr hdef
  have hdef1 : "default" ∈ trimmedSet cfg.onlyExports R.exportsOut := by
    simp only [trimmedSet]
    split
    · exact Finset.mem_erase.mpr ⟨by decide, hdef0⟩
    · exact hdef0
  have hne : ¬ trimmedSet cfg.onlyExports R.exportsOut = ∅ := by
    intro h0
    rw [h0] at hdef1
    exact absurd hdef1 (Finset.not_mem_empty _)
  have hdef2 :
      "default" ∈ (trimmedSet cfg.onlyExports R.exportsOut).erase "side-effect" :=
    Finset.mem_erase.mpr ⟨by decide, hdef1⟩
  have hhz : hazardCond ((trimmedSet cfg.onlyExports R.exportsOut).erase
      "side-effect") R.exportsOut c.isEsModule := ⟨hdef2, hhas, hes⟩
  simp only [shakerPluginEnter]
  rw [← hR, if_neg hne, if_pos hhz]

/-- Witness for C1 at a concrete non-ES module with a plain `default`
export. -/
theorem c1_default_interop_abort_witness :
    ("default" ∈ ["default", "other"] ∧
      lookupExport
        (rearrangeExports [] [("default", (1 : Node))] [Stmt.orig 0] 0 100).exportsOut
        "default" ≠ none) ∧
    shakerPluginEnter ⟨["default", "other"], Policy.skipShaking, false, [], false⟩
        envA ⟨[⟨"x", "s", 2⟩], [("default", 1)], [], [], false⟩ [Stmt.orig 0] 0
        100 [] =
      Except.ok
        { imports := [⟨"x", "s", 2⟩], exports := [("default", 1)],
          reexports := [], deadExports := [], removedNodes := ∅,
          body := [Stmt.orig 0], edges := [], deref := [] } :=
  ⟨⟨by simp, by decide⟩,
    c1_default_interop_abort
      ⟨["default", "other"], Policy.skipShaking, false, [], false⟩ envA
      ⟨[⟨"x", "s", 2⟩], [("default", 1)], [], [], false⟩ [Stmt.orig 0] 0 100 []
      (by simp) (by decide) rfl⟩

/-- C10: the reserved name `__linariaPreval` is removed from the requested
set before the empty-request check whenever the module does not export it;
a request consisting only of `__linariaPreval` on a module that does not
export it takes the empty-request fast path, removing every top-level
statement and reporting all original export names as dead. -/
theorem c10_preval_trimming (cfg : ShakerConfig) (env : Env) (c : Collected)
    (body0 : List Stmt) (uid0 : Nat) (node0 : Node) (edges0 : List (Nat × Node))
    (hset : cfg.onlyExports.toFinset = {"__linariaPreval"})
    (hnp : lookupExport
        (rearrangeExports c.exportRefs c.exports body0 uid0 node0).exportsOut
        "__linariaPreval" = none)
    (hkeys : ∀ e ∈ c.exportRefs, e.1 ∈ c.exports.map Prod.fst) :
    shakerPluginEnter cfg env c body0 uid0 node0 edges0 =
      Except.ok
        { imports := [], exports := [], reexports := [],
          deadExports := c.exports.map Prod.fst, removedNodes := ∅,
          body := [], edges := edges0, deref := [] } := by
  have hk := rearrangeExports_keys c.exportRefs c.exports body0 uid0 node0 hkeys
  have hts : trimmedSet cfg.onlyExports
      (rearrangeExports c.exportRefs c.exports body0 uid0 node0).exportsOut = ∅ := by
    simp only [trimmedSet, hset]
    rw [if_pos ⟨Finset.mem_singleton_self _, hnp⟩]
    exact Finset.erase_singleton _
  simp only [shakerPluginEnter]
  rw [if_pos hts, hk]

/-- Witness for C10: requesting only `__linariaPreval` on a module that
exports only `a` takes the fast path. -/
theorem c10_preval_trimming_witness :
    (["__linariaPreval"].toFinset = ({"__linariaPreval"} : Finset String) ∧
      lookupExport
        (rearrangeExports [] [("a", (1 : Node))] [Stmt.orig 0] 0 100).exportsOut
        "__linariaPreval" = none) ∧
    shakerPluginEnter ⟨["__linariaPreval"], Policy.skipShaking, false, [], false⟩
        envA ⟨[], [("a", 1)], [], [], true⟩ [Stmt.orig 0] 0 100 [] =
      Except.ok
        { imports := [], exports := [], reexports := [], deadExports := ["a"],
          removedNodes := ∅, body := [], edges := [], deref := [] } :=
  ⟨⟨by decide, by decide⟩,
    c10_preval_trimming ⟨["__linariaPreval"], Policy.skipShaking, false, [], false⟩
      envA ⟨[], [("a", 1)], [], [], true⟩ [Stmt.orig 0] 0 100 [] (by decide)
      (by decide) (by simp)⟩

/-- Severing changes neither the deleted set nor the changed flag. -/
theorem severStep_deleted (env : Env) (st : ElimState) (p : Node) :
    (severStep env st p).deleted = st.deleted := by
  unfold severStep
  split <;> rfl

/-- Severing changes neither the deleted set nor the changed flag. -/
theorem severStep_changed (env : Env) (st : ElimState) (p : Node) :
    (severStep env st p).changed = st.changed := by
  unfold severStep
  split <;> rfl

/-- A candidate visit either leaves the deleted set and the changed flag
alone, or marks a not-yet-deleted candidate and flags progress. -/
theorem elimStep_deleted_changed (env : Env) (st : ElimState) (p : Node) :
    ((elimStep env st p).deleted = st.deleted ∧
      (elimStep env st p).changed = st.changed) ∨
    (p ∉ st.deleted ∧ (elimStep env st p).deleted = insert p st.deleted ∧
      (elimStep env st p).changed = true) := by
  simp only [elimStep]
  by_cases h : p ∉ (severStep env st p).deleted ∧
      (env.getBindingForExport p = none ∨ (outerRefs env st.edges p).length = 0)
  · rw [if_pos h]
    right
    refine ⟨by rw [severStep_deleted] at h; exact h.1, ?_, rfl⟩
    show insert p (severStep env st p).deleted = insert p st.deleted
    rw [severStep_deleted]
  · rw [if_neg h]
    exact Or.inl ⟨severStep_deleted env st p, severStep_changed env st p⟩

/-- The deleted set grows along a candidate visit. -/
theorem elimStep_deleted_subset (env : Env) (st : ElimState) (p : Node) :
    st.deleted ⊆ (elimStep env st p).deleted := by
  rcases elimStep_deleted_changed env st p with ⟨h, _⟩ | ⟨_, h, _⟩
  · rw [h]
  · rw [h]
    exact Finset.subset_insert _ _

/-- A candidate visit can only add the visited candidate. -/
theorem elimStep_deleted_mem (env : Env) (st : ElimState) (p : Node) :
    (elimStep env st p).deleted ⊆ insert p st.deleted := by
  rcases elimStep_deleted_changed env st p with ⟨h, _⟩ | ⟨_, h, _⟩
  · rw [h]
    exact Finset.subset_insert _ _
  · rw [h]

/-- The deleted set grows along the inner loop. -/
theorem foldl_elimStep_deleted_subset (env : Env) (l : List Node) (st : ElimState) :
    st.deleted ⊆ (l.foldl (elimStep env) st).deleted := by
  induction l generalizing st with
  | nil => exact Finset.Subset.refl _
  | cons a l ih =>
    rw [List.foldl_cons]
    exact (elimStep_deleted_subset env st a).trans (ih _)

/-- If the inner loop ends with the changed flag set, either it was
already set or the deleted set strictly grew. -/
theorem foldl_elimStep_changed (env : Env) (l : List Node) (st : ElimState) :
    (l.foldl (elimStep env) st).changed = true →
    st.changed = true ∨ st.deleted ⊂ (l.foldl (elimStep env) st).deleted := by
  induction l generalizing st with
  | nil => exact fun h => Or.inl h
  | cons a l ih =>
    rw [List.foldl_cons]
    intro h
    rcases ih (elimStep env st a) h with h1 | h1
    · rcases elimStep_deleted_changed env st a with ⟨hd, hc⟩ | ⟨hp, hd, hc⟩
      · rw [hc] at h1
        exact Or.inl h1
      · right
        refine Finset.ssubset_of_ssubset_of_subset ?_
          (foldl_elimStep_deleted_subset env l _)
        rw [hd]
        exact Finset.ssubset_insert hp
    · right
      exact Finset.ssubset_of_subset_of_ssubset (elimStep_deleted_subset env st a) h1

/-- The inner loop only marks worklist members deleted. -/
theorem foldl_elimStep_deleted_in (env : Env) (l : List Node) (st : ElimState) :
    (l.foldl (elimStep env) st).deleted ⊆ st.deleted ∪ l.toFinset := by
  induction l generalizing st with
  | nil => simp
  | cons a l ih =>
    rw [List.foldl_cons]
    refine (ih (elimStep env st a)).trans ?_
    intro x hx
    rcases Finset.mem_union.mp hx with hx | hx
    · rcases Finset.mem_insert.mp (elimStep_deleted_mem env st a hx) with hx | hx
      · simp [hx]
      · simp [Finset.mem_union.mpr (Or.inl hx)]
    · simp [hx]

/-- A full pass grows the deleted set. -/
theorem passE_deleted_subset (env : Env) (wl : List Node) (st : ElimState) :
    st.deleted ⊆ (passE env wl st).deleted :=
  foldl_elimStep_deleted_subset env wl { st with changed := false }

/-- A full pass that reports progress strictly grew the deleted set. -/
theorem passE_changed (env : Env) (wl : List Node) (st : ElimState) :
    (passE env wl st).changed = true → st.deleted ⊂ (passE env wl st).deleted := by
  intro h
  rcases foldl_elimStep_changed env wl { st with changed := false } h with h1 | h1
  · exact absurd h1 (by simp)
  · exact h1

/-- A full pass only marks worklist members deleted. -/
theorem passE_deleted_in (env : Env) (wl : List Node) (st : ElimState) :
    (passE env wl st).deleted ⊆ st.deleted ∪ wl.toFinset :=
  foldl_elimStep_deleted_in env wl { st with changed := false }

/-- When the while-guard fails the loop returns its state whatever the
fuel. -/
theorem elimLoop_guard_false (env : Env) (wl : List Node) (st : ElimState)
    (h : ¬(st.changed = true ∧ st.deleted.card < wl.length)) :
    ∀ n, elimLoop env wl n st = st := by
  intro n
  cases n with
  | zero => rfl
  | succ n =>
    show (if st.changed = true ∧ st.deleted.card < wl.length then
      elimLoop env wl n (passE env wl st) else st) = st
    rw [if_neg h]

/-- Enough fuel makes the eliminator loop insensitive to extra fuel: each
continuing pass strictly grows the deleted set, which the guard bounds by
the worklist length. -/
theorem elimLoop_fuel_stable (env : Env) (wl : List Node) :
    ∀ (fuel : Nat) (st : ElimState) (k : Nat),
      wl.length + 1 ≤ fuel + st.deleted.card →
      elimLoop env wl (fuel + k) st = elimLoop env wl fuel st := by
  intro fuel
  induction fuel with
  | zero =>
    intro st k h
    have hng : ¬(st.changed = true ∧ st.deleted.card < wl.length) := by
      rintro ⟨_, hlt⟩
      omega
    rw [Nat.zero_add]
    exact elimLoop_guard_false env wl st hng k
  | succ fuel ih =>
    intro st k h
    by_cases hg : st.changed = true ∧ st.deleted.card < wl.length
    · have hL : elimLoop env wl (fuel + 1 + k) st =
          elimLoop env wl (fuel + k) (passE env wl st) := by
        rw [show fuel + 1 + k = (fuel + k) + 1 from by omega]
        show (if st.changed = true ∧ st.deleted.card < wl.length then
          elimLoop env wl (fuel + k) (passE env wl st) else st) = _
        rw [if_pos hg]
      have hR : elimLoop env wl (fuel + 1) st =
          elimLoop env wl fuel (passE env wl st) := by
        show (if st.changed = true ∧ st.deleted.card < wl.length then
          elimLoop env wl fuel (passE env wl st) else st) = _
        rw [if_pos hg]
      rw [hL, hR]
      by_cases hc : (passE env wl st).changed = true
      · have hlt := Finset.card_lt_card (passE_changed env wl st hc)
        exact ih (passE env wl st) k (by omega)
      · have hng : ¬((passE env wl st).changed = true ∧
            (passE env wl st).deleted.card < wl.length) := fun hx => hc hx.1
        rw [elimLoop_guard_false env wl _ hng (fuel + k),
          elimLoop_guard_false env wl _ hng fuel]
    · rw [elimLoop_guard_false env wl st hg (fuel + 1 + k),
        elimLoop_guard_false env wl st hg (fuel + 1)]

/-- The loop only ever marks worklist members deleted. -/
theorem elimLoop_deleted_in (env : Env) (wl : List Node) :
    ∀ (fuel : Nat) (st : ElimState),
      (elimLoop env wl fuel st).deleted ⊆ st.deleted ∪ wl.toFinset := by
  intro fuel
  induction fuel with
  | zero =>
    intro st
    exact Finset.subset_union_left
  | succ fuel ih =>
    intro st
    by_cases hg : st.changed = true ∧ st.deleted.card < wl.length
    · have hL : elimLoop env wl (fuel + 1) st =
          elimLoop env wl fuel (passE env wl st) := by
        show (if st.changed = true ∧ st.deleted.card < wl.length then
          elimLoop env wl fuel (passE env wl st) else st) = _
        rw [if_pos hg]
      rw [hL]
      refine (ih (passE env wl st)).trans ?_
      exact Finset.union_subset (passE_deleted_in env wl st)
        Finset.subset_union_right
    · rw [elimLoop_guard_false env wl st hg (fuel + 1)]
      exact Finset.subset_union_left

/-- C5: the fixed-point eliminator always terminates: the loop repeats
only while the previous pass deleted at least one node and the number of
deleted nodes is below the worklist length, each node is marked deleted at
most once (the deleted set stays inside the worklist), so fuel
`worklist length + 1` is a fixed point: any extra fuel changes nothing. -/
theorem c5_eliminator_terminates (env : Env) (wl : List Node)
    (edges0 : List (Nat × Node)) (k : Nat) :
    elimLoop env wl (wl.length + 1 + k) (initElimState edges0) =
      elimLoop env wl (wl.length + 1) (initElimState edges0) ∧
    (elimLoop env wl (wl.length + 1) (initElimState edges0)).deleted ⊆
      wl.toFinset := by
  constructor
  · exact elimLoop_fuel_stable env wl (wl.length + 1) (initElimState edges0) k
      (Nat.le_add_right _ _)
  · have h := elimLoop_deleted_in env wl (wl.length + 1) (initElimState edges0)
    simpa [initElimState] using h

/-- Severing removes the severed path's own edge. -/
theorem dereference_not_mem (env : Env) (edges : List (Nat × Node)) (q : Node)
    (b : Nat) (hb : env.getBindingForExport q = some b) :
    (b, q) ∉ dereference env edges q := by
  unfold dereference
  intro hmem
  have h := List.mem_filter.mp hmem
  simp [hb] at h

/-- Severing only removes edges. -/
theorem dereference_subset (env : Env) (edges : List (Nat × Node)) (q : Node)
    (x : Nat × Node) (h : x ∈ dereference env edges q) : x ∈ edges :=
  (List.mem_filter.mp h).1

/-- Invariant of the eliminator: every recorded severed identifier has no
edge to its binding in the current edge list. -/
def elimEdgeInv (env : Env) (st : ElimState) : Prop :=
  ∀ p b, env.getBindingForExport p = some b → p ∈ st.deref → (b, p) ∉ st.edges

/-- The sever step maintains the severed-edge invariant. -/
theorem severStep_inv (env : Env) (st : ElimState) (q : Node)
    (h : elimEdgeInv env st) : elimEdgeInv env (severStep env st q) := by
  unfold severStep
  split
  · intro p b hb hp
    rcases List.mem_append.mp hp with hp | hp
    · intro hmem
      exact h p b hb hp (dereference_subset env st.edges q _ hmem)
    · have hq : p = q := by simpa using hp
      subst hq
      exact dereference_not_mem env st.edges p b hb
  · exact h

/-- A candidate visit maintains the severed-edge invariant. -/
theorem elimStep_inv (env : Env) (st : ElimState) (q : Node)
    (h : elimEdgeInv env st) : elimEdgeInv env (elimStep env st q) := by
  have hs := severStep_inv env st q h
  simp only [elimStep]
  split
  · intro p b hb hp
    exact hs p b hb hp
  · exact hs

/-- The inner loop maintains the severed-edge invariant. -/
theorem foldl_elimStep_inv (env : Env) (l : List Node) (st : ElimState)
    (h : elimEdgeInv env st) : elimEdgeInv env (l.foldl (elimStep env) st) := by
  induction l generalizing st with
  | nil => exact h
  | cons a l ih =>
    rw [List.foldl_cons]
    exact ih _ (elimStep_inv env st a h)

/-- A full pass maintains the severed-edge invariant. -/
theorem passE_inv (env : Env) (wl : List Node) (st : ElimState)
    (h : elimEdgeInv env st) : elimEdgeInv env (passE env wl st) :=
  foldl_elimStep_inv env wl { st with changed := false } h

/-- The eliminator loop maintains the severed-edge invariant. -/
theorem elimLoop_inv (env : Env) (wl : List Node) :
    ∀ (fuel : Nat) (st : ElimState), elimEdgeInv env st →
      elimEdgeInv env (elimLoop env wl fuel st) := by
  intro fuel
  induction fuel with
  | zero => exact fun st h => h
  | succ fuel ih =>
    intro st h
    by_cases hg : st.changed = true ∧ st.deleted.card < wl.length
    · have hL : elimLoop env wl (fuel + 1) st =
          elimLoop env wl fuel (passE env wl st) := by
        show (if st.changed = true ∧ st.deleted.card < wl.length then
          elimLoop env wl fuel (passE env wl st) else st) = _
        rw [if_pos hg]
      rw [hL]
      exact ih _ (passE_inv env wl st h)
    · rw [elimLoop_guard_false env wl st hg (fuel + 1)]
      exact h

/-- Restoration keeps an edge that is already present exactly once at
multiplicity one. -/
theorem restore_count_keep (env : Env) (removedF : Finset Node) (l : List Node)
    (e : List (Nat × Node)) (p : Node) (b : Nat)
    (hb : env.getBindingForExport p = some b) (h : e.count (b, p) = 1) :
    (l.foldl (restoreStep env removedF) e).count (b, p) = 1 := by
  induction l generalizing e with
  | nil => exact h
  | cons q l ih =>
    rw [List.foldl_cons]
    refine ih _ ?_
    unfold restoreStep
    split
    · exact h
    · unfold reference
      by_cases hq : q = p
      · subst hq
        have hmem : (b, q) ∈ e := by
          by_contra hno
          rw [List.count_eq_zero.mpr hno] at h
          omega
        simp only [hb]
        rw [if_pos hmem]
        exact h
      · cases hgb : env.getBindingForExport q with
        | none => exact h
        | some bq =>
          simp only [hgb]
          split
          · exact h
          · rw [List.count_append]
            have h0 : List.count (b, p) [(bq, q)] = 0 := by
              refine List.count_eq_zero.mpr ?_
              intro hmem
              rcases List.mem_singleton.mp hmem with h2
              exact hq (congrArg Prod.snd h2).symm
            omega

/-- Restoring a severed, not-removed path whose edge is absent makes its
multiplicity exactly one. -/
theorem restore_count_reach (env : Env) (removedF : Finset Node) (l : List Node)
    (e : List (Nat × Node)) (p : Node) (b : Nat)
    (hb : env.getBindingForExport p = some b) (hne : (b, p) ∉ e) (hp : p ∈ l)
    (hnr : p ∉ removedF) :
    (l.foldl (restoreStep env removedF) e).count (b, p) = 1 := by
  induction l generalizing e with
  | nil => cases hp
  | cons q l ih =>
    rw [List.foldl_cons]
    by_cases hq : q = p
    · subst hq
      have he' : restoreStep env removedF e q = e ++ [(b, q)] := by
        unfold restoreStep
        rw [if_neg hnr]
        unfold reference
        simp only [hb]
        rw [if_neg hne]
      rw [he']
      refine restore_count_keep env removedF l _ q b hb ?_
      rw [List.count_append, List.count_eq_zero.mpr hne]
      simp
    · have hp' : p ∈ l := by
        rcases List.mem_cons.mp hp with h2 | h2
        · exact absurd h2.symm hq
        · exact h2
      refine ih _ ?_ hp'
      unfold restoreStep
      split
      · exact hne
      · unfold reference
        cases hgb : env.getBindingForExport q with
        | none => exact hne
        | some bq =>
          simp only [hgb]
          split
          · exact hne
          · intro hmem
            rcases List.mem_append.mp hmem with h2 | h2
            · exact hne h2
            · exact hq (congrArg Prod.snd (List.mem_singleton.mp h2)).symm

/-- C3: after elimination finishes, every identifier whose reference edge
was temporarily severed during the fixed-point loop and that was not
ultimately deleted has its reference edge restored exactly once
(multiplicity one in the final edge list); severing never remains as a
permanent mutation. -/
theorem c3_severed_edges_restored_once (env : Env) (wl : List Node)
    (edges0 : List (Nat × Node)) (extra : Finset Node) (fuel : Nat) (p : Node)
    (b : Nat)
    (hfin : p ∈ (elimLoop env wl fuel (initElimState edges0)).deref)
    (hnr : p ∉ extra ∪ (elimLoop env wl fuel (initElimState edges0)).deleted)
    (hb : env.getBindingForExport p = some b) :
    (restoreAll env (extra ∪ (elimLoop env wl fuel (initElimState edges0)).deleted)
        (elimLoop env wl fuel (initElimState edges0))).count (b, p) = 1 := by
  have hinv : elimEdgeInv env (elimLoop env wl fuel (initElimState edges0)) := by
    refine elimLoop_inv env wl fuel _ ?_
    intro p' b' _ hp'
    simp [initElimState] at hp'
  unfold restoreAll
  exact restore_count_reach env _ _ _ p b hb (hinv p b hb hfin) hfin hnr

/-- Witness for C3: one identifier candidate with a surviving outer
reference is severed in the first pass, never deleted, and restored to
multiplicity one. -/
def envB : Env :=
  { getBindingForExport := fun p => if p = 1 then some 0 else none
    findActionForNode := fun _ => none
    isAncestor := fun _ _ => false
    isIdentifier := fun p => p = 1
    nodeName := fun _ => ""
    shouldKeepSideEffect := fun _ => false
    dangerousNodes := [] }

theorem c3_severed_edges_restored_once_witness :
    ((1 : Node) ∈ (elimLoop envB [1] 2 (initElimState [(0, 5)])).deref ∧
      (1 : Node) ∉ (∅ : Finset Node) ∪
        (elimLoop envB [1] 2 (initElimState [(0, 5)])).deleted ∧
      envB.getBindingForExport 1 = some 0) ∧
    (restoreAll envB ((∅ : Finset Node) ∪
        (elimLoop envB [1] 2 (initElimState [(0, 5)])).deleted)
        (elimLoop envB [1] 2 (initElimState [(0, 5)]))).count (0, 1) = 1 :=
  ⟨⟨by decide, by decide, by decide⟩,
    c3_severed_edges_restored_once envB [1] [(0, 5)] ∅ 2 1 0 (by decide)
      (by decide) (by decide)⟩

/-- Helper: the default-interop hazard abort publishes everything alive
with no deletions and the post-normalizer body. -/
theorem hazard_abort_result (cfg : ShakerConfig) (env : Env) (c : Collected)
    (body0 : List Stmt) (uid0 : Nat) (node0 : Node) (edges0 : List (Nat × Node))
    (hne : trimmedSet cfg.onlyExports
      (rearrangeExports c.exportRefs c.exports body0 uid0 node0).exportsOut ≠ ∅)
    (hhz : hazardCond ((trimmedSet cfg.onlyExports
        (rearrangeExports c.exportRefs c.exports body0 uid0 node0).exportsOut).erase
        "side-effect")
      (rearrangeExports c.exportRefs c.exports body0 uid0 node0).exportsOut
      c.isEsModule) :
    shakerPluginEnter cfg env c body0 uid0 node0 edges0 =
      Except.ok
        { imports := c.imports,
          exports :=
            (rearrangeExports c.exportRefs c.exports body0 uid0 node0).exportsOut,
          reexports := c.reexports, deadExports := [], removedNodes := ∅,
          body := (rearrangeExports c.exportRefs c.exports body0 uid0 node0).body,
          edges := edges0, deref := [] } := by
  simp only [shakerPluginEnter]
  rw [if_neg hne, if_pos hhz]

/-- Helper: the skip-shaking abort (reached with a non-wildcard request and
an alive-count mismatch) publishes everything alive with no deletions and
the post-normalizer body. -/
theorem skip_abort_result (cfg : ShakerConfig) (env : Env) (c : Collected)
    (body0 : List Stmt) (uid0 : Nat) (node0 : Node) (edges0 : List (Nat × Node))
    (hne : trimmedSet cfg.onlyExports
      (rearrangeExports c.exportRefs c.exports body0 uid0 node0).exportsOut ≠ ∅)
    (hhz : ¬ hazardCond ((trimmedSet cfg.onlyExports
        (rearrangeExports c.exportRefs c.exports body0 uid0 node0).exportsOut).erase
        "side-effect")
      (rearrangeExports c.exportRefs c.exports body0 uid0 node0).exportsOut
      c.isEsModule)
    (hstar : "*" ∉ (trimmedSet cfg.onlyExports
      (rearrangeExports c.exportRefs c.exports body0 uid0 node0).exportsOut).erase
      "side-effect")
    (hcard : (aliveSet env c ((trimmedSet cfg.onlyExports
        (rearrangeExports c.exportRefs c.exports body0 uid0 node0).exportsOut).erase
        "side-effect")
      (rearrangeExports c.exportRefs c.exports body0 uid0 node0).exportsOut).card ≠
      ((trimmedSet cfg.onlyExports
        (rearrangeExports c.exportRefs c.exports body0 uid0 node0).exportsOut).erase
        "side-effect").card)
    (hpol : cfg.ifUnknownExport = Policy.skipShaking) :
    shakerPluginEnter cfg env c body0 uid0 node0 edges0 =
      Except.ok
        { imports := c.imports,
          exports :=
            (rearrangeExports c.exportRefs c.exports body0 uid0 node0).exportsOut,
          reexports := c.reexports, deadExports := [], removedNodes := ∅,
          body := (rearrangeExports c.exportRefs c.exports body0 uid0 node0).body,
          edges := edges0, deref := [] } := by
  simp only [shakerPluginEnter]
  rw [if_neg hne, if_neg hhz, if_pos hstar,
    if_pos (And.intro hcard (by rw [hpol]; decide)),
    if_neg (show ¬ cfg.ifUnknownExport = Policy.error by rw [hpol]; decide),
    if_pos hpol]

/-- Counterexample to C4: on the skip-shaking abort path the module tree is
not unchanged from its input state: the export normalizer has already
inserted a declaration and a tail assignment for the doubly-referenced
export `a`, so the resulting body differs from the input body. -/
theorem c4_counterexample :
    shakerPluginEnter ⟨["b"], Policy.skipShaking, false, [], false⟩ envA
        ⟨[], [("a", 1)], [("a", [10, 11])], [], true⟩ [Stmt.orig 0] 0 100 [] =
      Except.ok
        { imports := [], exports := [("a", 100)], reexports := [],
          deadExports := [], removedNodes := ∅,
          body := [Stmt.varDecl 0, Stmt.orig 0, Stmt.exportAssign "a" 0 100],
          edges := [], deref := [] } ∧
    [Stmt.varDecl 0, Stmt.orig 0, Stmt.exportAssign "a" 0 100] ≠
      [Stmt.orig 0] :=
  ⟨by decide, by decide⟩

/-- C4 (amended): on both abort paths (the default-export interop hazard
and the skip-shaking unknown-export policy) the pass deletes nothing and
reports everything alive: no removed nodes, empty dead-export list, all
collected imports and re-exports and the full export map published; the
tree, however, keeps the statements the export normalizer inserted before
the abort check (its body is the post-normalizer body, not necessarily the
input body). -/
theorem c4_abort_paths_no_deletions (cfg : ShakerConfig) (env : Env)
    (c : Collected) (body0 : List Stmt) (uid0 : Nat) (node0 : Node)
    (edges0 : List (Nat × Node))
    (hne : trimmedSet cfg.onlyExports
      (rearrangeExports c.exportRefs c.exports body0 uid0 node0).exportsOut ≠ ∅)
    (habort : hazardCond ((trimmedSet cfg.onlyExports
        (rearrangeExports c.exportRefs c.exports body0 uid0 node0).exportsOut).erase
        "side-effect")
      (rearrangeExports c.exportRefs c.exports body0 uid0 node0).exportsOut
      c.isEsModule ∨
      (¬ hazardCond ((trimmedSet cfg.onlyExports
          (rearrangeExports c.exportRefs c.exports body0 uid0 node0).exportsOut).erase
          "side-effect")
        (rearrangeExports c.exportRefs c.exports body0 uid0 node0).exportsOut
        c.isEsModule ∧
        "*" ∉ (trimmedSet cfg.onlyExports
          (rearrangeExports c.exportRefs c.exports body0 uid0 node0).exportsOut).erase
          "side-effect" ∧
        (aliveSet env c ((trimmedSet cfg.onlyExports
            (rearrangeExports c.exportRefs c.exports body0 uid0 node0).exportsOut).erase
            "side-effect")
          (rearrangeExports c.exportRefs c.exports body0 uid0 node0).exportsOut).card ≠
          ((trimmedSet cfg.onlyExports
            (rearrangeExports c.exportRefs c.exports body0 uid0 node0).exportsOut).erase
            "side-effect").card ∧
        cfg.ifUnknownExport = Policy.skipShaking)) :
    shakerPluginEnter cfg env c body0 uid0 node0 edges0 =
      Except.ok
        { imports := c.imports,
          exports :=
            (rearrangeExports c.exportRefs c.exports body0 uid0 node0).exportsOut,
          reexports := c.reexports, deadExports := [], removedNodes := ∅,
          body := (rearrangeExports c.exportRefs c.exports body0 uid0 node0).body,
          edges := edges0, deref := [] } := by
  rcases habort with hhz | ⟨hhz, hstar, hcard, hpol⟩
  · exact hazard_abort_result cfg env c body0 uid0 node0 edges0 hne hhz
  · exact skip_abort_result cfg env c body0 uid0 node0 edges0 hne hhz hstar
      hcard hpol

/-- Witness for the amended C4 on the skip-shaking abort path of the
counterexample module. -/
theorem c4_abort_paths_no_deletions_witness :
    (trimmedSet ["b"]
      (rearrangeExports [("a", [10, 11])] [("a", (1 : Node))] [Stmt.orig 0] 0
        100).exportsOut ≠ ∅) ∧
    shakerPluginEnter ⟨["b"], Policy.skipShaking, false, [], false⟩ envA
        ⟨[], [("a", 1)], [("a", [10, 11])], [], true⟩ [Stmt.orig 0] 0 100 [] =
      Except.ok
        { imports := [],
          exports :=
            (rearrangeExports [("a", [10, 11])] [("a", 1)] [Stmt.orig 0] 0
              100).exportsOut,
          reexports := [], deadExports := [], removedNodes := ∅,
          body := (rearrangeExports [("a", [10, 11])] [("a", 1)] [Stmt.orig 0] 0
            100).body,
          edges := [], deref := [] } :=
  ⟨by decide,
    c4_abort_paths_no_deletions ⟨["b"], Policy.skipShaking, false, [], false⟩
      envA ⟨[], [("a", 1)], [("a", [10, 11])], [], true⟩ [Stmt.orig 0] 0 100 []
      (by decide) (Or.inr ⟨by decide, by decide, by decide, rfl⟩)⟩

/-- Counterexample to C6: with `ifUnknownExport = error` the fatal error is
also raised when every requested name matched an alive export node.  Both
requested names `x` and `y` are exported and map to the shared node `5`,
which is alive, yet the pass throws because the alive-node count (1) is
compared with the requested-set size (2). -/
theorem c6_counterexample :
    shakerPluginEnter ⟨["x", "y"], Policy.error, false, [], false⟩ envA
        ⟨[], [("x", 5), ("y", 5)], [], [], true⟩ [Stmt.orig 0] 0 100 [] =
      Except.error "Unknown export(s) requested: x,y" ∧
    (∀ r ∈ ["x", "y"], ∃ nd, (r, nd) ∈ [("x", (5 : Node)), ("y", 5)] ∧
      nd ∈ aliveSet envA ⟨[], [("x", 5), ("y", 5)], [], [], true⟩
        ((trimmedSet ["x", "y"]
          (rearrangeExports [] [("x", 5), ("y", 5)] [Stmt.orig 0] 0
            100).exportsOut).erase "side-effect")
        (rearrangeExports [] [("x", 5), ("y", 5)] [Stmt.orig 0] 0
          100).exportsOut) := by
  refine ⟨by decide, ?_⟩
  intro r hr
  simp only [List.mem_cons, List.not_mem_nil, or_false] at hr
  rcases hr with rfl | rfl
  · exact ⟨5, by decide, by decide⟩
  · exact ⟨5, by decide, by decide⟩

/-- C6 (amended): the fatal error is raised exactly when the pass reaches
the liveness check (nonempty trimmed request, no default-interop hazard, no
wildcard request) with `ifUnknownExport = error` and an alive-node count
different from the trimmed requested-set size (a size proxy that neither
implies nor is implied by "some requested name matched nothing alive"); the
message enumerates the entire original requested list. -/
theorem c6_error_policy_characterization (cfg : ShakerConfig) (env : Env)
    (c : Collected) (body0 : List Stmt) (uid0 : Nat) (node0 : Node)
    (edges0 : List (Nat × Node)) (msg : String) :
    shakerPluginEnter cfg env c body0 uid0 node0 edges0 = Except.error msg ↔
      (trimmedSet cfg.onlyExports
        (rearrangeExports c.exportRefs c.exports body0 uid0 node0).exportsOut ≠ ∅ ∧
      ¬ hazardCond ((trimmedSet cfg.onlyExports
          (rearrangeExports c.exportRefs c.exports body0 uid0 node0).exportsOut).erase
          "side-effect")
        (rearrangeExports c.exportRefs c.exports body0 uid0 node0).exportsOut
        c.isEsModule ∧
      "*" ∉ (trimmedSet cfg.onlyExports
        (rearrangeExports c.exportRefs c.exports body0 uid0 node0).exportsOut).erase
        "side-effect" ∧
      (aliveSet env c ((trimmedSet cfg.onlyExports
          (rearrangeExports c.exportRefs c.exports body0 uid0 node0).exportsOut).erase
          "side-effect")
        (rearrangeExports c.exportRefs c.exports body0 uid0 node0).exportsOut).card ≠
        ((trimmedSet cfg.onlyExports
          (rearrangeExports c.exportRefs c.exports body0 uid0 node0).exportsOut).erase
          "side-effect").card ∧
      cfg.ifUnknownExport = Policy.error ∧
      errorMessage cfg.onlyExports = msg) := by
  simp only [shakerPluginEnter]
  split_ifs with h1 h2 h3 h4 h5 h6 <;> simp_all

/-- Environment for the C7 counterexample: node `2` carries the identifier
name `w`, no node has a binding or an action. -/
def envC : Env :=
  { getBindingForExport := fun _ => none
    findActionForNode := fun _ => none
    isAncestor := fun _ _ => false
    isIdentifier := fun _ => false
    nodeName := fun p => if p = 2 then "w" else ""
    shouldKeepSideEffect := fun _ => false
    dangerousNodes := [] }

/-- Counterexample to C7: under `skip-shaking` (the default policy) the
requested name `z` matches no export and no re-export, yet the pass does
not abort: the unrequested export `w` is counted alive because its local
node's name matches an imported name, the size proxy balances
(2 alive nodes versus 2 requested names), shaking proceeds, and the
unrequested export `y` is deleted (`deadExports = [y]`, not empty). -/
theorem c7_counterexample :
    shakerPluginEnter ⟨["x", "z"], Policy.skipShaking, false, [], false⟩ envC
        ⟨[⟨"w", "s", 3⟩], [("x", 1), ("w", 2), ("y", 4)], [], [], true⟩
        [Stmt.orig 0] 0 100 [] =
      Except.ok
        { imports := [⟨"w", "s", 3⟩], exports := [("x", 1), ("w", 2)],
          reexports := [], deadExports := ["y"], removedNodes := {4},
          body := [Stmt.orig 0], edges := [], deref := [] } ∧
    ("z" ∉ [("x", (1 : Node)), ("w", 2), ("y", 4)].map Prod.fst ∧
      (∀ r ∈ ([] : List ReexportRecord), r.exported ≠ "z") ∧
      ["y"] ≠ ([] : List String)) :=
  ⟨by decide, by decide, by decide, by decide⟩

/-- C7 (amended): the unknown-export policy defaults to `skip-shaking`,
and under the default policy, when the pass reaches the liveness check
(nonempty trimmed request, no default-interop hazard, no wildcard) and the
alive-node count differs from the trimmed requested-set size (the code's
proxy for unmatched names, which neither implies nor is implied by "some
requested name is unmatched"), the pass aborts with everything alive:
reported imports, exports and re-exports equal the collected ones and the
dead-export list is empty. -/
theorem c7_default_skip_shaking_abort (o : IShakerOptions) (dang : Bool)
    (env : Env) (c : Collected) (body0 : List Stmt) (uid0 : Nat) (node0 : Node)
    (edges0 : List (Nat × Node)) (hdef : o.ifUnknownExport = none)
    (hne : trimmedSet o.onlyExports
      (rearrangeExports c.exportRefs c.exports body0 uid0 node0).exportsOut ≠ ∅)
    (hhz : ¬ hazardCond ((trimmedSet o.onlyExports
        (rearrangeExports c.exportRefs c.exports body0 uid0 node0).exportsOut).erase
        "side-effect")
      (rearrangeExports c.exportRefs c.exports body0 uid0 node0).exportsOut
      c.isEsModule)
    (hstar : "*" ∉ (trimmedSet o.onlyExports
      (rearrangeExports c.exportRefs c.exports body0 uid0 node0).exportsOut).erase
      "side-effect")
    (hcard : (aliveSet env c ((trimmedSet o.onlyExports
        (rearrangeExports c.exportRefs c.exports body0 uid0 node0).exportsOut).erase
        "side-effect")
      (rearrangeExports c.exportRefs c.exports body0 uid0 node0).exportsOut).card ≠
      ((trimmedSet o.onlyExports
        (rearrangeExports c.exportRefs c.exports body0 uid0 node0).exportsOut).erase
        "side-effect").card) :
    (resolveOptions o dang).ifUnknownExport = Policy.skipShaking ∧
    shakerPluginEnter (resolveOptions o dang) env c body0 uid0 node0 edges0 =
      Except.ok
        { imports := c.imports,
          exports :=
            (rearrangeExports c.exportRefs c.exports body0 uid0 node0).exportsOut,
          reexports := c.reexports, deadExports := [], removedNodes := ∅,
          body := (rearrangeExports c.exportRefs c.exports body0 uid0 node0).body,
          edges := edges0, deref := [] } := by
  have hpol : (resolveOptions o dang).ifUnknownExport = Policy.skipShaking := by
    simp [resolveOptions, hdef]
  exact ⟨hpol,
    skip_abort_result (resolveOptions o dang) env c body0 uid0 node0 edges0 hne
      hhz hstar hcard hpol⟩

/-- Witness for the amended C7: one unmatched request under the default
policy aborts with everything alive. -/
theorem c7_default_skip_shaking_abort_witness :
    ((⟨["q"], none, none, none⟩ : IShakerOptions).ifUnknownExport = none ∧
      trimmedSet ["q"]
        (rearrangeExports [] [("a", (1 : Node))] [Stmt.orig 0] 0 100).exportsOut ≠ ∅) ∧
    ((resolveOptions ⟨["q"], none, none, none⟩ false).ifUnknownExport =
      Policy.skipShaking ∧
    shakerPluginEnter (resolveOptions ⟨["q"], none, none, none⟩ false) envA
        ⟨[], [("a", 1)], [], [], true⟩ [Stmt.orig 0] 0 100 [] =
      Except.ok
        { imports := [],
          exports := (rearrangeExports [] [("a", 1)] [Stmt.orig 0] 0 100).exportsOut,
          reexports := [], deadExports := [], removedNodes := ∅,
          body := (rearrangeExports [] [("a", 1)] [Stmt.orig 0] 0 100).body,
          edges := [], deref := [] }) :=
  ⟨⟨rfl, by decide⟩,
    c7_default_skip_shaking_abort ⟨["q"], none, none, none⟩ false envA
      ⟨[], [("a", 1)], [], [], true⟩ [Stmt.orig 0] 0 100 [] rfl (by decide)
      (by decide) (by decide) (by decide)⟩

/-- Lookup in the rewritten export map finds the upserted key's new
value. -/
theorem lookupExport_map_self :
    ∀ (l : List (String × Node)) (k : String) (v : Node), k ∈ l.map Prod.fst →
      lookupExport (l.map (fun p => if p.1 = k then (k, v) else p)) k = some v := by
  intro l
  induction l with
  | nil =>
    intro k v h
    simp at h
  | cons a l ih =>
    intro k v h
    rw [List.map_cons]
    by_cases hk : a.1 = k
    · rw [if_pos hk]
      simp [lookupExport]
    · rw [if_neg hk]
      have h' : k ∈ l.map Prod.fst := by
        rw [List.map_cons, List.mem_cons] at h
        rcases h with h2 | h2
        · exact absurd h2 (fun hh => hk hh.symm)
        · exact h2
      simp only [lookupExport]
      rw [if_neg hk]
      exact ih k v h'

/-- Lookup in the appended export map finds the appended key's value. -/
theorem lookupExport_append_self :
    ∀ (l : List (String × Node)) (k : String) (v : Node), k ∉ l.map Prod.fst →
      lookupExport (l ++ [(k, v)]) k = some v := by
  intro l
  induction l with
  | nil =>
    intro k v _
    simp [lookupExport]
  | cons a l ih =>
    intro k v h
    have hk : ¬ a.1 = k := fun he => h (by simp [he])
    have h' : k ∉ l.map Prod.fst := fun hm => h (by simp [hm])
    rw [List.cons_append]
    simp only [lookupExport]
    rw [if_neg hk]
    exact ih k v h'

/-- Lookup of a different key in the rewritten export map is unchanged. -/
theorem lookupExport_map_ne :
    ∀ (l : List (String × Node)) (k : String) (v : Node) (n : String), n ≠ k →
      lookupExport (l.map (fun p => if p.1 = k then (k, v) else p)) n =
        lookupExport l n := by
  intro l
  induction l with
  | nil => intro k v n _; rfl
  | cons a l ih =>
    intro k v n h
    rw [List.map_cons]
    simp only [lookupExport]
    by_cases hk : a.1 = k
    · rw [if_pos hk]
      rw [if_neg (fun hh : (k, v).1 = n => h hh.symm),
        if_neg (fun hh : a.1 = n => h ((hk ▸ hh).symm))]
      exact ih k v n h
    · rw [if_neg hk]
      by_cases hn : a.1 = n
      · rw [if_pos hn, if_pos hn]
      · rw [if_neg hn, if_neg hn]
        exact ih k v n h

/-- Lookup of a different key in the appended export map is unchanged. -/
theorem lookupExport_append_ne :
    ∀ (l : List (String × Node)) (k : String) (v : Node) (n : String), n ≠ k →
      lookupExport (l ++ [(k, v)]) n = lookupExport l n := by
  intro l
  induction l with
  | nil =>
    intro k v n h
    simp only [List.nil_append, lookupExport]
    rw [if_neg (fun hh : (k, v).1 = n => h hh.symm)]
  | cons a l ih =>
    intro k v n h
    rw [List.cons_append]
    simp only [lookupExport]
    by_cases hn : a.1 = n
    · rw [if_pos hn, if_pos hn]
    · rw [if_neg hn, if_neg hn]
      exact ih k v n h

/-- Upserting a key makes its lookup the new value. -/
theorem lookupExport_upsert_self (l : List (String × Node)) (k : String)
    (v : Node) : lookupExport (upsert l k v) k = some v := by
  unfold upsert
  split
  · next h =>
    have hk : k ∈ l.map Prod.fst := by
      rw [List.any_eq_true] at h
      obtain ⟨p, hp, hpk⟩ := h
      rw [decide_eq_true_eq] at hpk
      exact List.mem_map.mpr ⟨p, hp, hpk⟩
    exact lookupExport_map_self l k v hk
  · next h =>
    have hk : k ∉ l.map Prod.fst := by
      intro hm
      rcases List.mem_map.mp hm with ⟨p, hp, hpk⟩
      exact h (List.any_eq_true.mpr ⟨p, hp, by simp [hpk]⟩)
    exact lookupExport_append_self l k v hk

/-- Upserting a key leaves every other lookup unchanged. -/
theorem lookupExport_upsert_ne (l : List (String × Node)) (k : String)
    (v : Node) (n : String) (h : n ≠ k) :
    lookupExport (upsert l k v) n = lookupExport l n := by
  unfold upsert
  split
  · exact lookupExport_map_ne l k v n h
  · exact lookupExport_append_ne l k v n h


/-- A normalizer entry keeps every existing statement. -/
theorem processEntry_body_mono (st : RState) (e : String × List Node) (s : Stmt)
    (h : s ∈ st.body) : s ∈ (processEntry st e).body := by
  unfold processEntry
  split
  · exact h
  · exact List.mem_cons_of_mem _ (List.mem_append_left _ h)

/-- A normalizer entry keeps every recorded replacement. -/
theorem processEntry_replaced_mono (st : RState) (e : String × List Node)
    (x : Node × Nat) (h : x ∈ st.replaced) : x ∈ (processEntry st e).replaced := by
  unfold processEntry
  split
  · exact h
  · exact List.mem_append_left _ h

/-- A normalizer entry leaves lookups of other names unchanged. -/
theorem processEntry_lookup_ne (st : RState) (e : String × List Node)
    (n : String) (h : n ≠ e.1) :
    lookupExport (processEntry st e).exportsOut n =
      lookupExport st.exportsOut n := by
  unfold processEntry
  split
  · rfl
  · exact lookupExport_upsert_ne _ _ _ _ h

/-- The normalizer fold keeps every existing statement. -/
theorem foldl_body_mono (l : List (String × List Node)) (st : RState) (s : Stmt)
    (h : s ∈ st.body) : s ∈ (l.foldl processEntry st).body := by
  induction l generalizing st with
  | nil => exact h
  | cons a l ih =>
    rw [List.foldl_cons]
    exact ih _ (processEntry_body_mono st a s h)

/-- The normalizer fold keeps every recorded replacement. -/
theorem foldl_replaced_mono (l : List (String × List Node)) (st : RState)
    (x : Node × Nat) (h : x ∈ st.replaced) :
    x ∈ (l.foldl processEntry st).replaced := by
  induction l generalizing st with
  | nil => exact h
  | cons a l ih =>
    rw [List.foldl_cons]
    exact ih _ (processEntry_replaced_mono st a x h)

/-- The normalizer fold leaves lookups of untouched names unchanged. -/
theorem foldl_lookup_ne (n : String) :
    ∀ (l : List (String × List Node)) (st : RState), n ∉ l.map Prod.fst →
      lookupExport (l.foldl processEntry st).exportsOut n =
        lookupExport st.exportsOut n := by
  intro l
  induction l with
  | nil => intro st _; rfl
  | cons a l ih =>
    intro st hn
    simp only [List.map_cons, List.mem_cons, not_or] at hn
    rw [List.foldl_cons, ih (processEntry st a) hn.2,
      processEntry_lookup_ne st a n hn.1]

/-- Processing a multiply-referenced entry declares the fresh variable,
appends the tail assignment, repoints the export entry at the assignment's
right side, and records the replacement of every reference site. -/
theorem processEntry_big (st : RState) (e : String × List Node)
    (hbig : 1 < e.2.length) :
    Stmt.varDecl st.uidCounter ∈ (processEntry st e).body ∧
    Stmt.exportAssign e.1 st.uidCounter st.nodeCounter ∈ (processEntry st e).body ∧
    lookupExport (processEntry st e).exportsOut e.1 = some st.nodeCounter ∧
    (∀ site ∈ e.2, (site, st.uidCounter) ∈ (processEntry st e).replaced) := by
  unfold processEntry
  rw [if_neg (by omega)]
  refine ⟨List.mem_cons_self _ _, ?_, lookupExport_upsert_self _ _ _, ?_⟩
  · exact List.mem_cons_of_mem _
      (List.mem_append_right _ (List.mem_singleton.mpr rfl))
  · intro site hs
    exact List.mem_append_right _ (List.mem_map.mpr ⟨site, hs, rfl⟩)

/-- A normalizer entry for a different name adds no tail assignment for
this name. -/
theorem processEntry_no_assign (st : RState) (e : String × List Node)
    (n : String) (hne : n ≠ e.1)
    (h : ∀ u r, Stmt.exportAssign n u r ∉ st.body) :
    ∀ u r, Stmt.exportAssign n u r ∉ (processEntry st e).body := by
  unfold processEntry
  split
  · exact h
  · intro u r hmem
    rcases List.mem_cons.mp hmem with he | hmem
    · exact Stmt.noConfusion he
    · rcases List.mem_append.mp hmem with hmem | hmem
      · exact h u r hmem
      · rw [List.mem_singleton] at hmem
        simp only [Stmt.exportAssign.injEq] at hmem
        exact hne hmem.1

/-- A normalizer entry whose reference sites avoid a site records no
replacement for it. -/
theorem processEntry_no_replaced (st : RState) (e : String × List Node)
    (site : Node) (hns : site ∉ e.2)
    (h : ∀ u, (site, u) ∉ st.replaced) :
    ∀ u, (site, u) ∉ (processEntry st e).replaced := by
  unfold processEntry
  split
  · exact h
  · intro u hmem
    rcases List.mem_append.mp hmem with hmem | hmem
    · exact h u hmem
    · rcases List.mem_map.mp hmem with ⟨r, hr, heq⟩
      simp only [Prod.mk.injEq] at heq
      exact hns (heq.1 ▸ hr)

/-- The normalizer fold over entries with other names adds no tail
assignment for this name. -/
theorem foldl_no_assign (n : String) :
    ∀ (l : List (String × List Node)) (st : RState), n ∉ l.map Prod.fst →
      (∀ u r, Stmt.exportAssign n u r ∉ st.body) →
      ∀ u r, Stmt.exportAssign n u r ∉ (l.foldl processEntry st).body := by
  intro l
  induction l with
  | nil => intro st _ h; exact h
  | cons a l ih =>
    intro st hn h
    simp only [List.map_cons, List.mem_cons, not_or] at hn
    rw [List.foldl_cons]
    exact ih (processEntry st a) hn.2 (processEntry_no_assign st a n hn.1 h)

/-- The normalizer fold over entries avoiding a site records no
replacement for it. -/
theorem foldl_no_replaced (site : Node) :
    ∀ (l : List (String × List Node)) (st : RState), (∀ y ∈ l, site ∉ y.2) →
      (∀ u, (site, u) ∉ st.replaced) →
      ∀ u, (site, u) ∉ (l.foldl processEntry st).replaced := by
  intro l
  induction l with
  | nil => intro st _ h; exact h
  | cons a l ih =>
    intro st hs h
    rw [List.foldl_cons]
    exact ih (processEntry st a) (fun y hy => hs y (List.mem_cons_of_mem _ hy))
      (processEntry_no_replaced st a site (hs a (List.mem_cons_self _ _)) h)

/-- Every multiply-referenced entry of the normalizer fold gets a declared
fresh variable, a tail assignment, a repointed export entry, and the
replacement of all its reference sites. -/
theorem foldl_big_entry (e : String × List Node) (hbig : 1 < e.2.length) :
    ∀ (l : List (String × List Node)) (st : RState),
      (l.map Prod.fst).Nodup → e ∈ l →
      ∃ uid rhs, Stmt.varDecl uid ∈ (l.foldl processEntry st).body ∧
        Stmt.exportAssign e.1 uid rhs ∈ (l.foldl processEntry st).body ∧
        lookupExport (l.foldl processEntry st).exportsOut e.1 = some rhs ∧
        ∀ site ∈ e.2, (site, uid) ∈ (l.foldl processEntry st).replaced := by
  intro l
  induction l with
  | nil => intro st _ he; cases he
  | cons a l ih =>
    intro st hnd he
    simp only [List.map_cons, List.nodup_cons] at hnd
    rw [List.foldl_cons]
    rcases List.mem_cons.mp he with rfl | he'
    · obtain ⟨h1, h2, h3, h4⟩ := processEntry_big st e hbig
      refine ⟨st.uidCounter, st.nodeCounter, foldl_body_mono l _ _ h1,
        foldl_body_mono l _ _ h2, ?_, ?_⟩
      · rw [foldl_lookup_ne e.1 l _ hnd.1]
        exact h3
      · intro site hs
        exact foldl_replaced_mono l _ _ (h4 site hs)
    · exact ih (processEntry st a) hnd.2 he'

/-- Every at-most-once-referenced entry of the normalizer fold is left
untouched: its export lookup is unchanged, it gets no tail assignment, and
none of its reference sites is replaced. -/
theorem foldl_small_entry (e : String × List Node) (hsmall : e.2.length ≤ 1) :
    ∀ (l : List (String × List Node)) (st : RState),
      (l.map Prod.fst).Nodup →
      List.Pairwise (fun x y => ∀ s ∈ x.2, s ∉ y.2) l → e ∈ l →
      (∀ u r, Stmt.exportAssign e.1 u r ∉ st.body) →
      (∀ site ∈ e.2, ∀ u, (site, u) ∉ st.replaced) →
      lookupExport (l.foldl processEntry st).exportsOut e.1 =
        lookupExport st.exportsOut e.1 ∧
      (∀ u r, Stmt.exportAssign e.1 u r ∉ (l.foldl processEntry st).body) ∧
      (∀ site ∈ e.2, ∀ u, (site, u) ∉ (l.foldl processEntry st).replaced) := by
  intro l
  induction l with
  | nil => intro st _ _ he _ _; cases he
  | cons a l ih =>
    intro st hnd hdisj he hna hnr
    simp only [List.map_cons, List.nodup_cons] at hnd
    rw [List.pairwise_cons] at hdisj
    rw [List.foldl_cons]
    rcases List.mem_cons.mp he with rfl | he'
    · have hpe : processEntry st e = st := by
        unfold processEntry
        rw [if_pos hsmall]
      rw [hpe]
      refine ⟨foldl_lookup_ne e.1 l st hnd.1, foldl_no_assign e.1 l st hnd.1 hna,
        ?_⟩
      intro site hs
      refine foldl_no_replaced site l st ?_ (fun u => hnr site hs u)
      intro y hy
      exact hdisj.1 y hy site hs
    · have hne : e.1 ≠ a.1 := by
        intro hh
        exact hnd.1 (hh ▸ List.mem_map.mpr ⟨e, he', rfl⟩)
      have hna' := processEntry_no_assign st a e.1 hne hna
      have hnr' : ∀ site ∈ e.2, ∀ u, (site, u) ∉ (processEntry st a).replaced := by
        intro site hs
        refine processEntry_no_replaced st a site ?_ (fun u => hnr site hs u)
        intro hsa
        exact hdisj.1 e he' site hsa hs
      obtain ⟨hl, hb, hr⟩ := ih (processEntry st a) hnd.2 hdisj.2 he' hna' hnr'
      exact ⟨hl.trans (processEntry_lookup_ne st a e.1 hne), hb, hr⟩

/-- The normalizer fold keeps the body in the shape: synthesized
declarations, then the original statements, then tail assignments. -/
theorem foldl_body_shape (body0 : List Stmt) :
    ∀ (l : List (String × List Node)) (st : RState),
      (∃ ds as2, st.body = ds ++ body0 ++ as2 ∧
        (∀ d ∈ ds, d.isVarDecl = true) ∧ (∀ x ∈ as2, x.isExportAssign = true)) →
      ∃ ds as2, (l.foldl processEntry st).body = ds ++ body0 ++ as2 ∧
        (∀ d ∈ ds, d.isVarDecl = true) ∧ (∀ x ∈ as2, x.isExportAssign = true) := by
  intro l
  induction l with
  | nil => intro st h; exact h
  | cons a l ih =>
    intro st h
    rw [List.foldl_cons]
    refine ih (processEntry st a) ?_
    obtain ⟨ds, as2, hb, hd, ha⟩ := h
    unfold processEntry
    split
    · exact ⟨ds, as2, hb, hd, ha⟩
    · refine ⟨Stmt.varDecl st.uidCounter :: ds,
        as2 ++ [Stmt.exportAssign a.1 st.uidCounter st.nodeCounter], ?_, ?_, ?_⟩
      · show Stmt.varDecl st.uidCounter ::
          (st.body ++ [Stmt.exportAssign a.1 st.uidCounter st.nodeCounter]) = _
        rw [hb]
        simp [List.append_assoc]
      · intro d hd2
        rcases List.mem_cons.mp hd2 with rfl | hd2
        · rfl
        · exact hd d hd2
      · intro x hx
        rcases List.mem_append.mp hx with hx | hx
        · exact ha x hx
        · rw [List.mem_singleton] at hx
          subst hx
          rfl

/-- The synthesized-declaration identifiers appearing in a body. -/
def declUids (body : List Stmt) : List Nat :=
  body.filterMap (fun s => match s with
    | Stmt.varDecl u => some u
    | _ => none)

/-- A normalizer entry either leaves the declared identifiers alone, or
declares exactly the current counter value and bumps the counter. -/
theorem processEntry_declUids (st : RState) (a : String × List Node) :
    (declUids (processEntry st a).body = declUids st.body ∧
      (processEntry st a).uidCounter = st.uidCounter) ∨
    (declUids (processEntry st a).body = st.uidCounter :: declUids st.body ∧
      (processEntry st a).uidCounter = st.uidCounter + 1) := by
  unfold processEntry
  split
  · exact Or.inl ⟨rfl, rfl⟩
  · right
    refine ⟨?_, rfl⟩
    show declUids (Stmt.varDecl st.uidCounter ::
      (st.body ++ [Stmt.exportAssign a.1 st.uidCounter st.nodeCounter])) = _
    simp [declUids, List.filterMap_append]

/-- The normalizer fold keeps the declared identifiers distinct and below
the counter: synthesized identifiers are collision-free. -/
theorem foldl_declUids_nodup :
    ∀ (l : List (String × List Node)) (st : RState),
      (declUids st.body).Nodup → (∀ u ∈ declUids st.body, u < st.uidCounter) →
      (declUids (l.foldl processEntry st).body).Nodup := by
  intro l
  induction l with
  | nil => intro st h _; exact h
  | cons a l ih =>
    intro st h hb
    rw [List.foldl_cons]
    rcases processEntry_declUids st a with ⟨h1, h2⟩ | ⟨h1, h2⟩
    · refine ih (processEntry st a) (h1 ▸ h) ?_
      rw [h1, h2]
      exact hb
    · refine ih (processEntry st a) ?_ ?_
      · rw [h1]
        refine List.nodup_cons.mpr ⟨?_, h⟩
        intro hm
        exact absurd (hb _ hm) (lt_irrefl _)
      · rw [h1, h2]
        intro u hu
        rcases List.mem_cons.mp hu with rfl | hu
        · omega
        · have := hb u hu
          omega

/-- Bodies consisting of original statements declare no synthesized
identifiers. -/
theorem declUids_of_orig (b : List Stmt) (h : ∀ s ∈ b, s.isOrig = true) :
    declUids b = [] := by
  induction b with
  | nil => rfl
  | cons s b ih =>
    have hs := h s (List.mem_cons_self _ _)
    cases s with
    | orig n =>
      show declUids (Stmt.orig n :: b) = []
      simp only [declUids, List.filterMap_cons]
      exact ih (fun s hs2 => h s (List.mem_cons_of_mem _ hs2))
    | varDecl u => simp [Stmt.isOrig] at hs
    | exportAssign n u r => simp [Stmt.isOrig] at hs

/-- C8: for every export name with more than one internal reference site,
the normalizer synthesizes a fresh collision-free identifier (declared
identifiers are pairwise distinct), declares it at the top of the module
(the body is declarations ++ original statements ++ tail assignments),
rewrites every internal reference to use it, appends one assignment at the
bottom copying that variable onto the export name, and repoints the export
entry at that tail assignment's value; every export name with at most one
internal reference site is left untouched: its export entry is unchanged,
no tail assignment for it exists, and none of its sites is replaced. -/
theorem c8_rearrange_exports (exportRefs : List (String × List Node))
    (exports : List (String × Node)) (body0 : List Stmt) (uid0 : Nat)
    (node0 : Node) (hnd : (exportRefs.map Prod.fst).Nodup)
    (hdisj : List.Pairwise (fun x y => ∀ s ∈ x.2, s ∉ y.2) exportRefs)
    (hbody0 : ∀ s ∈ body0, s.isOrig = true) :
    (∃ ds as2,
      (rearrangeExports exportRefs exports body0 uid0 node0).body =
        ds ++ body0 ++ as2 ∧
      (∀ d ∈ ds, d.isVarDecl = true) ∧ (∀ x ∈ as2, x.isExportAssign = true)) ∧
    (declUids (rearrangeExports exportRefs exports body0 uid0 node0).body).Nodup ∧
    (∀ e ∈ exportRefs, 1 < e.2.length → ∃ uid rhs,
      Stmt.varDecl uid ∈ (rearrangeExports exportRefs exports body0 uid0 node0).body ∧
      Stmt.exportAssign e.1 uid rhs ∈
        (rearrangeExports exportRefs exports body0 uid0 node0).body ∧
      lookupExport (rearrangeExports exportRefs exports body0 uid0
        node0).exportsOut e.1 = some rhs ∧
      ∀ site ∈ e.2, (site, uid) ∈
        (rearrangeExports exportRefs exports body0 uid0 node0).replaced) ∧
    (∀ e ∈ exportRefs, e.2.length ≤ 1 →
      lookupExport (rearrangeExports exportRefs exports body0 uid0
        node0).exportsOut e.1 = lookupExport exports e.1 ∧
      (∀ u r, Stmt.exportAssign e.1 u r ∉
        (rearrangeExports exportRefs exports body0 uid0 node0).body) ∧
      (∀ site ∈ e.2, ∀ u, (site, u) ∉
        (rearrangeExports exportRefs exports body0 uid0 node0).replaced)) := by
  refine ⟨?_, ?_, ?_, ?_⟩
  · refine foldl_body_shape body0 exportRefs _ ⟨[], [], by simp, ?_, ?_⟩
    · intro d hd
      cases hd
    · intro x hx
      cases hx
  · refine foldl_declUids_nodup exportRefs _ ?_ ?_
    · show (declUids body0).Nodup
      rw [declUids_of_orig body0 hbody0]
      exact List.nodup_nil
    · show ∀ u ∈ declUids body0, u < uid0
      rw [declUids_of_orig body0 hbody0]
      intro u hu
      cases hu
  · intro e he hb
    exact foldl_big_entry e hb exportRefs _ hnd he
  · intro e he hs
    refine foldl_small_entry e hs exportRefs _ hnd hdisj he ?_ ?_
    · intro u r hmem
      have h2 := hbody0 _ hmem
      simp [Stmt.isOrig] at h2
    · intro site _ u hmem
      cases hmem

/-- Witness for C8 on a module with one doubly-referenced export `a` and
one singly-referenced export `b`. -/
theorem c8_rearrange_exports_witness :
    (([("a", [10, 11]), ("b", [12])].map
        (Prod.fst (α := String) (β := List Node))).Nodup ∧
      List.Pairwise (fun x y => ∀ s ∈ x.2, s ∉ y.2)
        [("a", [(10 : Node), 11]), ("b", [12])] ∧
      ∀ s ∈ [Stmt.orig 0], s.isOrig = true) ∧
    ((∃ ds as2,
      (rearrangeExports [("a", [10, 11]), ("b", [12])] [("a", 1), ("b", 2)]
        [Stmt.orig 0] 0 100).body = ds ++ [Stmt.orig 0] ++ as2 ∧
      (∀ d ∈ ds, d.isVarDecl = true) ∧ (∀ x ∈ as2, x.isExportAssign = true)) ∧
    (declUids (rearrangeExports [("a", [10, 11]), ("b", [12])]
      [("a", 1), ("b", 2)] [Stmt.orig 0] 0 100).body).Nodup ∧
    (∀ e ∈ [("a", [(10 : Node), 11]), ("b", [12])], 1 < e.2.length → ∃ uid rhs,
      Stmt.varDecl uid ∈ (rearrangeExports [("a", [10, 11]), ("b", [12])]
        [("a", 1), ("b", 2)] [Stmt.orig 0] 0 100).body ∧
      Stmt.exportAssign e.1 uid rhs ∈
        (rearrangeExports [("a", [10, 11]), ("b", [12])] [("a", 1), ("b", 2)]
          [Stmt.orig 0] 0 100).body ∧
      lookupExport (rearrangeExports [("a", [10, 11]), ("b", [12])]
        [("a", 1), ("b", 2)] [Stmt.orig 0] 0 100).exportsOut e.1 = some rhs ∧
      ∀ site ∈ e.2, (site, uid) ∈
        (rearrangeExports [("a", [10, 11]), ("b", [12])] [("a", 1), ("b", 2)]
          [Stmt.orig 0] 0 100).replaced) ∧
    (∀ e ∈ [("a", [(10 : Node), 11]), ("b", [12])], e.2.length ≤ 1 →
      lookupExport (rearrangeExports [("a", [10, 11]), ("b", [12])]
        [("a", 1), ("b", 2)] [Stmt.orig 0] 0 100).exportsOut e.1 =
        lookupExport [("a", 1), ("b", 2)] e.1 ∧
      (∀ u r, Stmt.exportAssign e.1 u r ∉
        (rearrangeExports [("a", [10, 11]), ("b", [12])] [("a", 1), ("b", 2)]
          [Stmt.orig 0] 0 100).body) ∧
      (∀ site ∈ e.2, ∀ u, (site, u) ∉
        (rearrangeExports [("a", [10, 11]), ("b", [12])] [("a", 1), ("b", 2)]
          [Stmt.orig 0] 0 100).replaced))) :=
  ⟨⟨by decide, by decide, by decide⟩,
    c8_rearrange_exports [("a", [10, 11]), ("b", [12])] [("a", 1), ("b", 2)]
      [Stmt.orig 0] 0 100 (by decide) (by decide) (by decide)⟩

/-- A present key's lookup is never `undefined`. -/
theorem lookupExport_ne_none_of_mem (l : List (String × Node)) (k : String)
    (v : Node) (h : (k, v) ∈ l) : lookupExport l k ≠ none := by
  induction l with
  | nil => cases h
  | cons a l ih =>
    show (if a.1 = k then some a.2 else lookupExport l k) ≠ none
    by_cases hk : a.1 = k
    · rw [if_pos hk]
      exact Option.some_ne_none _
    · rw [if_neg hk]
      rcases List.mem_cons.mp h with rfl | h2
      · exact absurd rfl hk
      · exact ih h2

/-- With distinct keys, a key determines its node. -/
theorem nodup_key_unique (l : List (String × Node))
    (hnd : (l.map Prod.fst).Nodup) (k : String) (v v' : Node)
    (h : (k, v) ∈ l) (h' : (k, v') ∈ l) : v = v' := by
  induction l with
  | nil => cases h
  | cons a l ih =>
    simp only [List.map_cons, List.nodup_cons] at hnd
    rcases List.mem_cons.mp h with rfl | h2
    · rcases List.mem_cons.mp h' with he | h2'
      · exact (congrArg Prod.snd he.symm)
      · exact absurd (List.mem_map.mpr ⟨(k, v'), h2', rfl⟩) hnd.1
    · rcases List.mem_cons.mp h' with rfl | h2'
      · exact absurd (List.mem_map.mpr ⟨(k, v), h2, rfl⟩) hnd.1
      · exact ih hnd.2 h2 h2'

/-- The export half of the alive set only grows along its fold. -/
theorem aliveFromExports_fold_mono (env : Env) (importNames : List String)
    (s2 : Finset String) (l : List (String × Node)) (acc : Finset Node) :
    acc ⊆ l.foldl (fun acc e =>
      if e.1 ∈ s2 then insert e.2 acc
      else if env.nodeName e.2 ∈ importNames then insert e.2 acc
      else if e.2 ∈ acc then insert e.2 acc
      else acc) acc := by
  induction l generalizing acc with
  | nil => exact Finset.Subset.refl _
  | cons a l ih =>
    rw [List.foldl_cons]
    refine Finset.Subset.trans ?_ (ih _)
    split
    · exact Finset.subset_insert _ _
    · split
      · exact Finset.subset_insert _ _
      · split
        · exact Finset.subset_insert _ _
        · exact Finset.Subset.refl _

/-- An export entry with a requested name puts its node in the export half
of the alive set. -/
theorem mem_aliveFromExports (env : Env) (importNames : List String)
    (s2 : Finset String) (exports : List (String × Node)) (e1 : String)
    (n : Node) (hmem : (e1, n) ∈ exports) (hreq : e1 ∈ s2) :
    n ∈ aliveFromExports env importNames s2 exports := by
  unfold aliveFromExports
  suffices h : ∀ (l : List (String × Node)) (acc : Finset Node),
      (e1, n) ∈ l → n ∈ l.foldl (fun acc e =>
        if e.1 ∈ s2 then insert e.2 acc
        else if env.nodeName e.2 ∈ importNames then insert e.2 acc
        else if e.2 ∈ acc then insert e.2 acc
        else acc) acc from h exports ∅ hmem
  intro l
  induction l with
  | nil => intro acc h; cases h
  | cons a l ih =>
    intro acc h
    rcases List.mem_cons.mp h with rfl | h2
    · rw [List.foldl_cons]
      refine aliveFromExports_fold_mono env importNames s2 l _ ?_
      rw [if_pos hreq]
      exact Finset.mem_insert_self _ _
    · rw [List.foldl_cons]
      exact ih _ h2

/-- The re-export half of the alive set only grows along its fold. -/
theorem reexports_fold_mono (s2 : Finset String) (l : List ReexportRecord)
    (acc : Finset Node) :
    acc ⊆ l.foldl
      (fun acc r => if r.exported ∈ s2 then insert r.localNode acc else acc)
      acc := by
  induction l generalizing acc with
  | nil => exact Finset.Subset.refl _
  | cons a l ih =>
    rw [List.foldl_cons]
    refine Finset.Subset.trans ?_ (ih _)
    split
    · exact Finset.subset_insert _ _
    · exact Finset.Subset.refl _

/-- An export entry with a requested name puts its node in the alive
set. -/
theorem mem_aliveSet (env : Env) (c : Collected) (s2 : Finset String)
    (exports : List (String × Node)) (e1 : String) (n : Node)
    (hmem : (e1, n) ∈ exports) (hreq : e1 ∈ s2) :
    n ∈ aliveSet env c s2 exports := by
  unfold aliveSet
  exact reexports_fold_mono s2 c.reexports _
    (mem_aliveFromExports env _ s2 exports e1 n hmem hreq)

/-- The wildcard re-export fold only grows the alive set. -/
theorem reexports_star_fold_mono (l : List ReexportRecord) (acc : Finset Node) :
    acc ⊆ l.foldl
      (fun acc r => if r.exported = "*" then insert r.localNode acc else acc)
      acc := by
  induction l generalizing acc with
  | nil => exact Finset.Subset.refl _
  | cons a l ih =>
    rw [List.foldl_cons]
    refine Finset.Subset.trans ?_ (ih _)
    split
    · exact Finset.subset_insert _ _
    · exact Finset.Subset.refl _

/-- The `reexport-all` augmentation only grows the alive set. -/
theorem addReexportAll_mono (c : Collected) (exports : List (String × Node))
    (alive : Finset Node) : alive ⊆ addReexportAll c exports alive := by
  unfold addReexportAll
  cases hstar : lookupExport exports "*" with
  | none => exact reexports_star_fold_mono c.reexports alive
  | some m =>
    exact Finset.Subset.trans (Finset.subset_insert _ _)
      (reexports_star_fold_mono c.reexports _)

/-- An alive node that is no scheduled side-effect or dead-import target
never enters the deletion worklist. -/
theorem not_mem_forDeleting (cfg : ShakerConfig) (env : Env) (c : Collected)
    (exports : List (String × Node)) (edges0 : List (Nat × Node))
    (alive' : Finset Node) (ias : Bool) (n : Node) (halive : n ∈ alive')
    (hsei : n ∉ sideEffectTargets env c)
    (hdi : n ∉ deadImportTargets env cfg.deadImports c edges0) :
    n ∉ forDeletingList cfg env c exports edges0 alive' ias := by
  unfold forDeletingList
  intro hmem
  rcases List.mem_append.mp hmem with hmem | hmem
  · rcases List.mem_append.mp hmem with hmem | hmem
    · have h2 := List.mem_filter.mp hmem
      rw [decide_eq_true_eq] at h2
      exact h2.2 halive
    · by_cases hc : (!cfg.keepSideEffects && !ias) = true
      · rw [if_pos hc] at hmem
        exact hsei hmem
      · rw [if_neg hc] at hmem
        cases hmem
  · by_cases hc : cfg.deadImports ≠ []
    · rw [if_pos hc] at hmem
      exact hdi hmem
    · rw [if_neg hc] at hmem
      cases hmem

/-- In the shaking branch, an alive export node and all its export names
survive: name and node are published, the name is not reported dead, and
the node is not removed. -/
theorem shakeCore_survives (cfg : ShakerConfig) (env : Env) (c : Collected)
    (exports : List (String × Node)) (bodyR : List Stmt)
    (edges0 : List (Nat × Node)) (alive' : Finset Node) (ias : Bool)
    (e1 : String) (n : Node) (hm1 : (e1, n) ∈ exports)
    (hnd : (exports.map Prod.fst).Nodup) (halive : n ∈ alive')
    (hsei : n ∉ sideEffectTargets env c)
    (hdi : n ∉ deadImportTargets env cfg.deadImports c edges0)
    (hdang : n ∉ env.dangerousNodes) :
    (e1, n) ∈ (shakeCore cfg env c exports bodyR edges0 alive' ias).exports ∧
    e1 ∉ (shakeCore cfg env c exports bodyR edges0 alive' ias).deadExports ∧
    n ∉ (shakeCore cfg env c exports bodyR edges0 alive' ias).removedNodes := by
  have hwl := not_mem_forDeleting cfg env c exports edges0 alive' ias n halive
    hsei hdi
  have hdel : n ∉ (elimLoop env
      (forDeletingList cfg env c exports edges0 alive' ias)
      ((forDeletingList cfg env c exports edges0 alive' ias).length + 1)
      (initElimState edges0)).deleted := by
    intro hd
    have h2 := elimLoop_deleted_in env
      (forDeletingList cfg env c exports edges0 alive' ias)
      ((forDeletingList cfg env c exports edges0 alive' ias).length + 1)
      (initElimState edges0) hd
    rcases Finset.mem_union.mp h2 with h3 | h3
    · exact absurd h3 (Finset.not_mem_empty n)
    · exact hwl (List.mem_toFinset.mp h3)
  have hrem : n ∉ (if cfg.dangerousEnabled then env.dangerousNodes.toFinset
      else ∅) ∪ (elimLoop env
        (forDeletingList cfg env c exports edges0 alive' ias)
        ((forDeletingList cfg env c exports edges0 alive' ias).length + 1)
        (initElimState edges0)).deleted := by
    intro h2
    rcases Finset.mem_union.mp h2 with h3 | h3
    · by_cases hdg : cfg.dangerousEnabled
      · rw [if_pos hdg] at h3
        exact hdang (List.mem_toFinset.mp h3)
      · rw [if_neg hdg] at h3
        exact absurd h3 (Finset.not_mem_empty n)
    · exact hdel h3
  refine ⟨?_, ?_, ?_⟩
  · show (e1, n) ∈ exports.filter _
    exact List.mem_filter.mpr ⟨hm1, decide_eq_true hrem⟩
  · show e1 ∉ (exports.filter _).map Prod.fst
    intro hd
    obtain ⟨e', he', heq⟩ := List.mem_map.mp hd
    obtain ⟨k, m⟩ := e'
    have h3 := List.mem_filter.mp he'
    have h4 : m ∈ (if cfg.dangerousEnabled then env.dangerousNodes.toFinset
        else ∅) ∪ (elimLoop env
          (forDeletingList cfg env c exports edges0 alive' ias)
          ((forDeletingList cfg env c exports edges0 alive' ias).length + 1)
          (initElimState edges0)).deleted := of_decide_eq_true h3.2
    have hk : k = e1 := heq
    subst hk
    have hmn : m = n := nodup_key_unique exports hnd k m n h3.1 hm1
    subst hmn
    exact hrem h4
  · exact hrem

/-- C9: for every module in which several export names map to the same
local node (a shared initializer), if at least one of those names is
requested then the shared node survives elimination, all of those names
remain in the surviving export map, and none of them appears in the
dead-export list (under the tree-model side conditions that the node is
not also a scheduled side-effect or dead-import target and is not stripped
as dangerous code). -/
theorem c9_shared_initializer_survives (cfg : ShakerConfig) (env : Env)
    (c : Collected) (body0 : List Stmt) (uid0 : Nat) (node0 : Node)
    (edges0 : List (Nat × Node)) (r : ShakeResult) (e1 e2 : String) (n : Node)
    (hok : shakerPluginEnter cfg env c body0 uid0 node0 edges0 = Except.ok r)
    (hm1 : (e1, n) ∈
      (rearrangeExports c.exportRefs c.exports body0 uid0 node0).exportsOut)
    (hm2 : (e2, n) ∈
      (rearrangeExports c.exportRefs c.exports body0 uid0 node0).exportsOut)
    (hnd : ((rearrangeExports c.exportRefs c.exports body0 uid0
      node0).exportsOut.map Prod.fst).Nodup)
    (hreq : e1 ∈ cfg.onlyExports) (hse : e1 ≠ "side-effect")
    (hsei : n ∉ sideEffectTargets env c)
    (hdi : n ∉ deadImportTargets env cfg.deadImports c edges0)
    (hdang : n ∉ env.dangerousNodes) :
    (e1, n) ∈ r.exports ∧ (e2, n) ∈ r.exports ∧ e1 ∉ r.deadExports ∧
    e2 ∉ r.deadExports ∧ n ∉ r.removedNodes := by
  have he1s1 : e1 ∈ trimmedSet cfg.onlyExports
      (rearrangeExports c.exportRefs c.exports body0 uid0 node0).exportsOut := by
    simp only [trimmedSet]
    split
    · next hcond =>
      refine Finset.mem_erase.mpr ⟨?_, List.mem_toFinset.mpr hreq⟩
      intro heq
      exact (lookupExport_ne_none_of_mem _ e1 n hm1) (by rw [heq]; exact hcond.2)
    · exact List.mem_toFinset.mpr hreq
  have he1s2 : e1 ∈ (trimmedSet cfg.onlyExports
      (rearrangeExports c.exportRefs c.exports body0 uid0
        node0).exportsOut).erase "side-effect" :=
    Finset.mem_erase.mpr ⟨hse, he1s1⟩
  have halive : n ∈ aliveSet env c ((trimmedSet cfg.onlyExports
      (rearrangeExports c.exportRefs c.exports body0 uid0
        node0).exportsOut).erase "side-effect")
      (rearrangeExports c.exportRefs c.exports body0 uid0 node0).exportsOut :=
    mem_aliveSet env c _ _ e1 n hm1 he1s2
  simp only [shakerPluginEnter] at hok
  by_cases h1 : trimmedSet cfg.onlyExports
      (rearrangeExports c.exportRefs c.exports body0 uid0 node0).exportsOut = ∅
  · rw [h1] at he1s1
    exact absurd he1s1 (Finset.not_mem_empty _)
  · rw [if_neg h1] at hok
    by_cases h2 : hazardCond ((trimmedSet cfg.onlyExports
        (rearrangeExports c.exportRefs c.exports body0 uid0
          node0).exportsOut).erase "side-effect")
      (rearrangeExports c.exportRefs c.exports body0 uid0 node0).exportsOut
      c.isEsModule
    · rw [if_pos h2] at hok
      rw [Except.ok.injEq] at hok
      subst hok
      exact ⟨hm1, hm2, List.not_mem_nil _, List.not_mem_nil _,
        Finset.not_mem_empty _⟩
    · rw [if_neg h2] at hok
      by_cases h3 : "*" ∉ (trimmedSet cfg.onlyExports
          (rearrangeExports c.exportRefs c.exports body0 uid0
            node0).exportsOut).erase "side-effect"
      · rw [if_pos h3] at hok
        by_cases h4 : (aliveSet env c ((trimmedSet cfg.onlyExports
              (rearrangeExports c.exportRefs c.exports body0 uid0
                node0).exportsOut).erase "side-effect")
            (rearrangeExports c.exportRefs c.exports body0 uid0
              node0).exportsOut).card ≠
            ((trimmedSet cfg.onlyExports
              (rearrangeExports c.exportRefs c.exports body0 uid0
                node0).exportsOut).erase "side-effect").card ∧
            cfg.ifUnknownExport ≠ Policy.ignore
        · rw [if_pos h4] at hok
          by_cases h5 : cfg.ifUnknownExport = Policy.error
          · rw [if_pos h5] at hok
            exact Except.noConfusion hok
          · rw [if_neg h5] at hok
            by_cases h6 : cfg.ifUnknownExport = Policy.skipShaking
            · rw [if_pos h6] at hok
              rw [Except.ok.injEq] at hok
              subst hok
              exact ⟨hm1, hm2, List.not_mem_nil _, List.not_mem_nil _,
                Finset.not_mem_empty _⟩
            · rw [if_neg h6] at hok
              rw [Except.ok.injEq] at hok
              subst hok
              have halive2 : n ∈ (if cfg.ifUnknownExport = Policy.reexportAll
                  then addReexportAll c
                    (rearrangeExports c.exportRefs c.exports body0 uid0
                      node0).exportsOut
                    (aliveSet env c ((trimmedSet cfg.onlyExports
                      (rearrangeExports c.exportRefs c.exports body0 uid0
                        node0).exportsOut).erase "side-effect")
                      (rearrangeExports c.exportRefs c.exports body0 uid0
                        node0).exportsOut)
                  else aliveSet env c ((trimmedSet cfg.onlyExports
                    (rearrangeExports c.exportRefs c.exports body0 uid0
                      node0).exportsOut).erase "side-effect")
                    (rearrangeExports c.exportRefs c.exports body0 uid0
                      node0).exportsOut) := by
                split
                · exact addReexportAll_mono _ _ _ halive
                · exact halive
              obtain ⟨ha1, hb1, hc1⟩ := shakeCore_survives cfg env c _ _
                edges0 _ _ e1 n hm1 hnd halive2 hsei hdi hdang
              obtain ⟨ha2, hb2, _⟩ := shakeCore_survives cfg env c _ _
                edges0 _ _ e2 n hm2 hnd halive2 hsei hdi hdang
              exact ⟨ha1, ha2, hb1, hb2, hc1⟩
        · rw [if_neg h4] at hok
          rw [Except.ok.injEq] at hok
          subst hok
          obtain ⟨ha1, hb1, hc1⟩ := shakeCore_survives cfg env c _ _ edges0 _ _
            e1 n hm1 hnd halive hsei hdi hdang
          obtain ⟨ha2, hb2, _⟩ := shakeCore_survives cfg env c _ _ edges0 _ _
            e2 n hm2 hnd halive hsei hdi hdang
          exact ⟨ha1, ha2, hb1, hb2, hc1⟩
      · rw [if_neg h3] at hok
        rw [Except.ok.injEq] at hok
        subst hok
        refine ⟨?_, ?_, ?_, ?_, Finset.not_mem_empty _⟩
        · exact List.mem_filter.mpr ⟨hm1, decide_eq_true (Finset.not_mem_empty n)⟩
        · exact List.mem_filter.mpr ⟨hm2, decide_eq_true (Finset.not_mem_empty n)⟩
        · intro hd
          obtain ⟨e3, he3, _⟩ := List.mem_map.mp hd
          have h7 := List.mem_filter.mp he3
          exact absurd (of_decide_eq_true h7.2) (Finset.not_mem_empty _)
        · intro hd
          obtain ⟨e3, he3, _⟩ := List.mem_map.mp hd
          have h7 := List.mem_filter.mp he3
          exact absurd (of_decide_eq_true h7.2) (Finset.not_mem_empty _)

/-- The concrete result record of the C9 witness run. -/
def c9res : ShakeResult :=
  { imports := [], exports := [("x", 5), ("y", 5)], reexports := [],
    deadExports := ["z"], removedNodes := {7}, body := [Stmt.orig 0],
    edges := [], deref := [] }

/-- Witness for C9: exports `x` and `y` share node `5`; requesting only
`x` keeps both entries and deletes only the independent export `z`. -/
theorem c9_shared_initializer_survives_witness :
    (shakerPluginEnter ⟨["x"], Policy.skipShaking, false, [], false⟩ envA
        ⟨[], [("x", 5), ("y", 5), ("z", 7)], [], [], true⟩ [Stmt.orig 0] 0 100
        [] = Except.ok c9res ∧
      ("x", (5 : Node)) ∈
        (rearrangeExports [] [("x", 5), ("y", 5), ("z", 7)] [Stmt.orig 0] 0
          100).exportsOut ∧
      ("y", (5 : Node)) ∈
        (rearrangeExports [] [("x", 5), ("y", 5), ("z", 7)] [Stmt.orig 0] 0
          100).exportsOut) ∧
    (("x", (5 : Node)) ∈ c9res.exports ∧ ("y", (5 : Node)) ∈ c9res.exports ∧
      "x" ∉ c9res.deadExports ∧ "y" ∉ c9res.deadExports ∧
      (5 : Node) ∉ c9res.removedNodes) :=
  ⟨⟨by decide, by decide, by decide⟩,
    c9_shared_initializer_survives ⟨["x"], Policy.skipShaking, false, [], false⟩
      envA ⟨[], [("x", 5), ("y", 5), ("z", 7)], [], [], true⟩ [Stmt.orig 0] 0
      100 [] c9res "x" "y" 5 (by decide) (by decide) (by decide) (by decide)
      (by decide) (by decide) (by decide) (by decide) (by decide)⟩
